import Mathlib

/-!
Verification of the ingestion / validation / catalog-assembly pipeline of the
KernelSU-Modules-Repo site generator (scripts/fetch-data.ts).

Strings are modelled as lists of characters (`Str`).  External effects
(the GraphQL client, the `runzip` subprocess, the markdown renderer, the
`ellipsize` library and `JSON.parse` of module.json) are modelled as oracle
parameters; everything the claims are about is translated from the source.
-/

set_option maxHeartbeats 1000000

abbrev Str := List Char

/-- Whitespace as removed by JavaScript's String.prototype.trim (modelled on
the ASCII whitespace characters that occur in practice). -/
def wsp (c : Char) : Bool :=
  c = ' ' || c = '\t' || c = '\n' || c = '\r'

/-- JavaScript String.prototype.trim: drop whitespace from both ends. -/
def trimL (s : Str) : Str :=
  ((s.dropWhile wsp).reverse.dropWhile wsp).reverse

/-- JavaScript String.prototype.split with a single-character separator. -/
def splitOnChar (sep : Char) : Str → List Str
  | [] => [[]]
  | x :: xs =>
    match splitOnChar sep xs with
    | [] => [[]]
    | h :: t => if x = sep then [] :: h :: t else (x :: h) :: t

/-- The PropertyMap built from module.prop: an insertion-ordered key/value
record (a JavaScript object used as a string map). -/
abbrev PropMap := List (Str × Str)

/-- JavaScript object assignment props[key] = value: overwrite the value if
the key is present, otherwise append the binding. -/
def setProp (m : PropMap) (k v : Str) : PropMap :=
  if m.any (fun p => p.1 == k) then
    m.map (fun p => if p.1 == k then (k, v) else p)
  else
    m ++ [(k, v)]

/-- Property lookup (props.id, props.version, ...). -/
def getProp (m : PropMap) (k : Str) : Option Str :=
  (m.find? (fun p => p.1 == k)).map (·.2)

/-- One iteration of the module.prop parsing loop in
extractModulePropsFromZip (fetch-data.ts:1067-1077): trim the line, skip
empty and '#'-led lines, split at the first '=', require a nonempty key,
and store the trimmed key and value. -/
def processPropLine (props : PropMap) (line : Str) : PropMap :=
  let trimmed := trimL line
  if trimmed = [] then props
  else if trimmed.head? = some '#' then props
  else
    match trimmed.span (fun c => c != '=') with
    | (before, '=' :: after) =>
      if before = [] then props else setProp props (trimL before) (trimL after)
    | _ => props

/-- The module.prop parsing loop of extractModulePropsFromZip
(fetch-data.ts:1063-1079): split the extracted text on newlines and fold
the per-line rule over an initially empty map. -/
def parseModulePropContent (content : Str) : PropMap :=
  (splitOnChar '\n' content).foldl processPropLine []

/-- extractModulePropsFromZip (fetch-data.ts:1054-1084).  The `runzip`
subprocess is external; its outcome is modelled as an `Option Str`:
`none` is any I/O failure (caught by the try/catch, which returns an empty
map), `some content` is the bytes it printed.  An empty stdout also yields
the empty map (the `if (!modulePropContent)` guard). -/
def extractModulePropsFromZip (stdout : Option Str) : PropMap :=
  match stdout with
  | none => []
  | some content => if content = [] then [] else parseModulePropContent content

/-! ## Private-image rewrite (fetch-data.ts:1039-1052)

REGEX_PUBLIC_IMAGES and the per-uuid private-image regex are concrete
patterns; both are embedded as deterministic scanners.  The patterns
contain no ambiguity: every `+`/`{n}` class is followed by a character
outside the class, so greedy matching with backtracking coincides with
maximal munch, and the lazy `.*?(?=")` tail stops at the first '"' and
fails on a line terminator (which `.` does not match). -/

def isDigitC (c : Char) : Bool := '0' ≤ c && c ≤ '9'

def isHexC (c : Char) : Bool :=
  isDigitC c || ('a' ≤ c && c ≤ 'f') || ('A' ≤ c && c ≤ 'F')

def asciiAlpha (c : Char) : Bool :=
  ('a' ≤ c && c ≤ 'z') || ('A' ≤ c && c ≤ 'Z')

/-- The character class of the owner segment: [a-zA-Z0-9-]. -/
def ownerChar (c : Char) : Bool := asciiAlpha c || isDigitC c || c = '-'

/-- The character class of the repo segment: [\w\-.]. -/
def repoChar (c : Char) : Bool :=
  asciiAlpha c || isDigitC c || c = '_' || c = '-' || c = '.'

/-- The characters matched by an (unflagged) JavaScript regex dot. -/
def dotChar (c : Char) : Bool :=
  !(c = '\n' || c = '\r' || c = Char.ofNat 0x2028 || c = Char.ofNat 0x2029)

/-- Consume a literal from the front of a string. -/
def dropLit : Str → Str → Option Str
  | [], s => some s
  | _ :: _, [] => none
  | a :: as, b :: bs => if a = b then dropLit as bs else none

/-- Consume a nonempty maximal digit run (the deterministic reading of a
greedy \d+ that is followed by a non-digit literal). -/
def dropDigits1 : Str → Option Str
  | [] => none
  | c :: t => if isDigitC c then some (t.dropWhile isDigitC) else none

/-- The lazy tail .*?(?=") of the private-image regex: walk forward
through dot-matchable characters; succeed at the first '"' (which is not
consumed); fail at a line terminator or the end of input. -/
def scanToQuote : Str → Option Str
  | [] => none
  | c :: t => if c = '"' then some (c :: t) else if dotChar c then scanToQuote t else none

def privLit : Str := "https://private-user-images.githubusercontent.com/".data

def pubLit : Str := "https://github.com/".data

/-- The fixed-shape part of the private-image regex for a given uuid:
privLit, digits, '/', digits, '-', the uuid, '.'.  Returns the rest of
the input after the consumed core. -/
def privCore (id s : Str) : Option Str :=
  (dropLit privLit s).bind fun s1 =>
  (dropDigits1 s1).bind fun s2 =>
  (dropLit ['/'] s2).bind fun s3 =>
  (dropDigits1 s3).bind fun s4 =>
  (dropLit ['-'] s4).bind fun s5 =>
  (dropLit id s5).bind fun s6 =>
  dropLit ['.'] s6

/-- A match of the private-image regex at the head of the input: the core
followed by the lazy scan to a '"'.  Returns the input remaining after the
match (beginning with the '"' of the lookahead). -/
def privMatchHead (id s : Str) : Option Str :=
  (privCore id s).bind scanToQuote

theorem dropLit_eq_some {lit s r : Str} : dropLit lit s = some r ↔ s = lit ++ r := by
  induction lit generalizing s with
  | nil => simp [dropLit]
  | cons a as ih =>
    cases s with
    | nil => simp [dropLit]
    | cons b bs =>
      by_cases hab : a = b
      · subst hab
        simpa [dropLit] using ih
      · simp [dropLit, hab, Ne.symm hab]

theorem dropWhile_length_le (p : Char → Bool) (l : Str) :
    (l.dropWhile p).length ≤ l.length := by
  induction l with
  | nil => simp
  | cons c t ih =>
    by_cases hc : p c
    · simpa [List.dropWhile, hc] using Nat.le_succ_of_le ih
    · simp [List.dropWhile, hc]

theorem dropDigits1_length {s r : Str} (h : dropDigits1 s = some r) :
    r.length < s.length := by
  cases s with
  | nil => simp [dropDigits1] at h
  | cons c t =>
    by_cases hc : isDigitC c
    · simp only [dropDigits1, hc, if_pos, Option.some.injEq] at h
      subst h
      exact Nat.lt_succ_of_le (dropWhile_length_le _ _)
    · simp [dropDigits1, hc] at h

theorem scanToQuote_length {s r : Str} (h : scanToQuote s = some r) :
    r.length ≤ s.length := by
  induction s with
  | nil => simp [scanToQuote] at h
  | cons c t ih =>
    by_cases hq : c = '"'
    · simp only [scanToQuote, hq, if_pos, Option.some.injEq] at h
      subst h
      simp [hq]
    · by_cases hd : dotChar c
      · simp only [scanToQuote, hq, if_neg, hd, if_pos] at h
        exact Nat.le_succ_of_le (ih h)
      · simp [scanToQuote, hq, hd] at h

theorem dropLit_length {lit s r : Str} (h : dropLit lit s = some r) :
    r.length + lit.length = s.length := by
  rw [dropLit_eq_some] at h
  subst h
  simp [Nat.add_comm]

theorem privCore_length {id s r : Str} (h : privCore id s = some r) :
    r.length < s.length := by
  simp only [privCore, Option.bind_eq_some] at h
  obtain ⟨s1, h1, s2, h2, s3, h3, s4, h4, s5, h5, s6, h6, h7⟩ := h
  have l1 := dropLit_length h1
  have l2 := dropDigits1_length h2
  have l3 := dropLit_length h3
  have l4 := dropDigits1_length h4
  have l5 := dropLit_length h5
  have l6 := dropLit_length h6
  have l7 := dropLit_length h7
  have : privLit.length = 50 := by decide
  omega

theorem privMatchHead_length {id s r : Str} (h : privMatchHead id s = some r) :
    r.length < s.length := by
  simp only [privMatchHead, Option.bind_eq_some] at h
  obtain ⟨m, hm, hs⟩ := h
  exact Nat.lt_of_le_of_lt (scanToQuote_length hs) (privCore_length hm)

/-- The scan loop of replaceAll, with explicit fuel so that it is
structural (each match consumes at least one character, so the input
length bounds the steps). -/
def privReplaceAllGo (id url : Str) : Nat → Str → Str
  | _, [] => []
  | 0, s => s
  | fuel + 1, c :: t =>
    match privMatchHead id (c :: t) with
    | some rest => url ++ privReplaceAllGo id url fuel rest
    | none => c :: privReplaceAllGo id url fuel t

/-- String.prototype.replaceAll with the private-image regex for uuid id,
replacing every (leftmost, non-overlapping) match with url. -/
def privReplaceAll (id url s : Str) : Str :=
  privReplaceAllGo id url s.length s

theorem privReplaceAllGo_fuel (id url : Str) :
    ∀ (fuel fuel' : Nat) (s : Str), s.length ≤ fuel → s.length ≤ fuel' →
    privReplaceAllGo id url fuel s = privReplaceAllGo id url fuel' s := by
  intro fuel
  induction fuel with
  | zero =>
    intro fuel' s hs _
    have : s = [] := List.length_eq_zero.mp (Nat.le_zero.mp hs)
    subst this
    cases fuel' <;> rfl
  | succ f ih =>
    intro fuel' s hs hs'
    cases s with
    | nil => cases fuel' <;> rfl
    | cons c t =>
      cases fuel' with
      | zero => simp at hs'
      | succ f' =>
        simp only [List.length_cons, Nat.succ_le_succ_iff] at hs hs'
        show (match privMatchHead id (c :: t) with
          | some rest => url ++ privReplaceAllGo id url f rest
          | none => c :: privReplaceAllGo id url f t) =
          (match privMatchHead id (c :: t) with
          | some rest => url ++ privReplaceAllGo id url f' rest
          | none => c :: privReplaceAllGo id url f' t)
        cases hm : privMatchHead id (c :: t) with
        | some rest =>
          have hlen : rest.length ≤ f := by
            have := privMatchHead_length hm
            simp only [List.length_cons] at this
            omega
          have hlen' : rest.length ≤ f' := by
            have := privMatchHead_length hm
            simp only [List.length_cons] at this
            omega
          dsimp only
          rw [ih f' rest hlen hlen']
        | none =>
          dsimp only
          rw [ih f' t hs hs']

theorem privReplaceAll_nil (id url : Str) : privReplaceAll id url [] = [] := rfl

theorem privReplaceAll_match {id : Str} (url : Str) {c : Char} {t rest : Str}
    (h : privMatchHead id (c :: t) = some rest) :
    privReplaceAll id url (c :: t) = url ++ privReplaceAll id url rest := by
  show (match privMatchHead id (c :: t) with
    | some r => url ++ privReplaceAllGo id url t.length r
    | none => c :: privReplaceAllGo id url t.length t) = _
  rw [h]
  dsimp only
  unfold privReplaceAll
  have hlen : rest.length ≤ t.length := by
    have := privMatchHead_length h
    simp only [List.length_cons] at this
    omega
  rw [privReplaceAllGo_fuel id url t.length rest.length rest hlen (Nat.le_refl _)]

theorem privReplaceAll_nomatch {id : Str} (url : Str) {c : Char} {t : Str}
    (h : privMatchHead id (c :: t) = none) :
    privReplaceAll id url (c :: t) = c :: privReplaceAll id url t := by
  show (match privMatchHead id (c :: t) with
    | some r => url ++ privReplaceAllGo id url t.length r
    | none => c :: privReplaceAllGo id url t.length t) = _
  rw [h]
  rfl

/-- Consume a nonempty maximal run of characters in a class (greedy `+`
whose class excludes the following literal character). -/
def takeWhile1 (p : Char → Bool) : Str → Option (Str × Str)
  | [] => none
  | c :: t => if p c then some (c :: t.takeWhile p, t.dropWhile p) else none

/-- Consume exactly n hexadecimal characters. -/
def takeHexN : Nat → Str → Option (Str × Str)
  | 0, s => some ([], s)
  | _ + 1, [] => none
  | n + 1, c :: t =>
    if isHexC c then (takeHexN n t).map (fun pr => (c :: pr.1, pr.2)) else none

/-- The 8-4-4-4-12 hexadecimal uuid of REGEX_PUBLIC_IMAGES.  The \\b
assertions of the pattern each precede a literal '-' and are therefore
redundant (a hexadecimal character followed by '-' is always a word
boundary).  Returns the uuid and the rest of the input. -/
def takeUuid (s : Str) : Option (Str × Str) :=
  (takeHexN 8 s).bind fun a1 =>
  (dropLit ['-'] a1.2).bind fun r9 =>
  (takeHexN 4 r9).bind fun a2 =>
  (dropLit ['-'] a2.2).bind fun r11 =>
  (takeHexN 4 r11).bind fun a3 =>
  (dropLit ['-'] a3.2).bind fun r13 =>
  (takeHexN 4 r13).bind fun a4 =>
  (dropLit ['-'] a4.2).bind fun r15 =>
  (takeHexN 12 r15).bind fun a5 =>
  some (a1.1 ++ '-' :: a2.1 ++ '-' :: a3.1 ++ '-' :: a4.1 ++ '-' :: a5.1, a5.2)

/-- A match of REGEX_PUBLIC_IMAGES at the head of the input.  Returns the
whole matched URL (match[0]), the captured uuid (match[1]) and the rest of
the input. -/
def pubMatchHead (s : Str) : Option (Str × Str × Str) :=
  (dropLit pubLit s).bind fun r1 =>
  (takeWhile1 ownerChar r1).bind fun ow =>
  (dropLit ['/'] ow.2).bind fun r3 =>
  (takeWhile1 repoChar r3).bind fun rp =>
  (dropLit "/assets/".data rp.2).bind fun r5 =>
  (takeWhile1 isDigitC r5).bind fun nm =>
  (dropLit ['/'] nm.2).bind fun r7 =>
  (takeUuid r7).bind fun ui =>
  some (pubLit ++ ow.1 ++ '/' :: rp.1 ++ "/assets/".data ++ nm.1 ++ '/' :: ui.1, ui.1, ui.2)

theorem takeWhile1_length {p : Char → Bool} {s : Str} {tr : Str × Str}
    (h : takeWhile1 p s = some tr) : tr.2.length < s.length := by
  cases s with
  | nil => simp [takeWhile1] at h
  | cons c cs =>
    by_cases hc : p c
    · simp only [takeWhile1, hc, if_pos, Option.some.injEq] at h
      subst h
      exact Nat.lt_succ_of_le (dropWhile_length_le _ _)
    · simp [takeWhile1, hc] at h

theorem takeHexN_length {n : Nat} {s : Str} {tr : Str × Str}
    (h : takeHexN n s = some tr) : tr.2.length ≤ s.length := by
  induction n generalizing s tr with
  | zero =>
    simp only [takeHexN, Option.some.injEq] at h
    subst h
    exact Nat.le_refl _
  | succ n ih =>
    cases s with
    | nil => simp [takeHexN] at h
    | cons c cs =>
      by_cases hc : isHexC c
      · simp only [takeHexN, hc, if_pos, Option.map_eq_some'] at h
        obtain ⟨pr, h1, h2⟩ := h
        have h3 : tr.2 = pr.2 := by rw [← h2]
        rw [h3]
        exact Nat.le_succ_of_le (ih h1)
      · simp [takeHexN, hc] at h

theorem takeUuid_length {s : Str} {ur : Str × Str}
    (h : takeUuid s = some ur) : ur.2.length ≤ s.length := by
  rw [takeUuid] at h
  obtain ⟨a1, h8, h⟩ := Option.bind_eq_some.mp h
  obtain ⟨r9, h9, h⟩ := Option.bind_eq_some.mp h
  obtain ⟨a2, h10, h⟩ := Option.bind_eq_some.mp h
  obtain ⟨r11, h11, h⟩ := Option.bind_eq_some.mp h
  obtain ⟨a3, h12, h⟩ := Option.bind_eq_some.mp h
  obtain ⟨r13, h13, h⟩ := Option.bind_eq_some.mp h
  obtain ⟨a4, h14, h⟩ := Option.bind_eq_some.mp h
  obtain ⟨r15, h15, h⟩ := Option.bind_eq_some.mp h
  obtain ⟨a5, h16, h⟩ := Option.bind_eq_some.mp h
  have hr : ur.2 = a5.2 := by
    have := congrArg (fun o => o.map Prod.snd) h
    simpa using this.symm
  rw [hr]
  have l8 := takeHexN_length h8
  have l9 := dropLit_length h9
  have l10 := takeHexN_length h10
  have l11 := dropLit_length h11
  have l12 := takeHexN_length h12
  have l13 := dropLit_length h13
  have l14 := takeHexN_length h14
  have l15 := dropLit_length h15
  have l16 := takeHexN_length h16
  omega

theorem pubMatchHead_length {s : Str} {uir : Str × Str × Str}
    (h : pubMatchHead s = some uir) : uir.2.2.length < s.length := by
  rw [pubMatchHead] at h
  obtain ⟨r1, h1, h⟩ := Option.bind_eq_some.mp h
  obtain ⟨ow, h2, h⟩ := Option.bind_eq_some.mp h
  obtain ⟨r3, h3, h⟩ := Option.bind_eq_some.mp h
  obtain ⟨rp, h4, h⟩ := Option.bind_eq_some.mp h
  obtain ⟨r5, h5, h⟩ := Option.bind_eq_some.mp h
  obtain ⟨nm, h6, h⟩ := Option.bind_eq_some.mp h
  obtain ⟨r7, h7, h⟩ := Option.bind_eq_some.mp h
  obtain ⟨ui, h8, h⟩ := Option.bind_eq_some.mp h
  have hr : uir.2.2 = ui.2 := by
    have := congrArg (fun o => o.map (fun x => x.2.2)) h
    simpa using this.symm
  rw [hr]
  have l1 := dropLit_length h1
  have l2 := takeWhile1_length h2
  have l3 := dropLit_length h3
  have l4 := takeWhile1_length h4
  have l5 := dropLit_length h5
  have l6 := takeWhile1_length h6
  have l7 := dropLit_length h7
  have l8 := takeUuid_length h8
  omega

/-- The matchAll scan loop, with explicit fuel (each match consumes at
least one character). -/
def pubMatchAllGo : Nat → Str → List (Str × Str)
  | _, [] => []
  | 0, _ => []
  | fuel + 1, c :: t =>
    match pubMatchHead (c :: t) with
    | some uir => (uir.1, uir.2.1) :: pubMatchAllGo fuel uir.2.2
    | none => pubMatchAllGo fuel t

/-- markdown.matchAll(REGEX_PUBLIC_IMAGES): all leftmost non-overlapping
matches, each contributing (match[0], match[1]). -/
def pubMatchAll (s : Str) : List (Str × Str) :=
  pubMatchAllGo s.length s

theorem pubMatchAllGo_fuel :
    ∀ (fuel fuel' : Nat) (s : Str), s.length ≤ fuel → s.length ≤ fuel' →
    pubMatchAllGo fuel s = pubMatchAllGo fuel' s := by
  intro fuel
  induction fuel with
  | zero =>
    intro fuel' s hs _
    have : s = [] := List.length_eq_zero.mp (Nat.le_zero.mp hs)
    subst this
    cases fuel' <;> rfl
  | succ f ih =>
    intro fuel' s hs hs'
    cases s with
    | nil => cases fuel' <;> rfl
    | cons c t =>
      cases fuel' with
      | zero => simp at hs'
      | succ f' =>
        simp only [List.length_cons, Nat.succ_le_succ_iff] at hs hs'
        show (match pubMatchHead (c :: t) with
          | some uir => (uir.1, uir.2.1) :: pubMatchAllGo f uir.2.2
          | none => pubMatchAllGo f t) =
          (match pubMatchHead (c :: t) with
          | some uir => (uir.1, uir.2.1) :: pubMatchAllGo f' uir.2.2
          | none => pubMatchAllGo f' t)
        cases hm : pubMatchHead (c :: t) with
        | some uir =>
          have hl := pubMatchHead_length hm
          simp only [List.length_cons] at hl
          dsimp only
          rw [ih f' uir.2.2 (by omega) (by omega)]
        | none =>
          dsimp only
          rw [ih f' t hs hs']

theorem pubMatchAll_nil : pubMatchAll [] = [] := rfl

theorem pubMatchAll_match {c : Char} {t : Str} {uir : Str × Str × Str}
    (h : pubMatchHead (c :: t) = some uir) :
    pubMatchAll (c :: t) = (uir.1, uir.2.1) :: pubMatchAll uir.2.2 := by
  show (match pubMatchHead (c :: t) with
    | some uir => (uir.1, uir.2.1) :: pubMatchAllGo t.length uir.2.2
    | none => pubMatchAllGo t.length t) = _
  rw [h]
  dsimp only
  unfold pubMatchAll
  have hl := pubMatchHead_length h
  simp only [List.length_cons] at hl
  rw [pubMatchAllGo_fuel t.length uir.2.2.length uir.2.2 (by omega) (Nat.le_refl _)]

theorem pubMatchAll_nomatch {c : Char} {t : Str}
    (h : pubMatchHead (c :: t) = none) :
    pubMatchAll (c :: t) = pubMatchAll t := by
  show (match pubMatchHead (c :: t) with
    | some uir => (uir.1, uir.2.1) :: pubMatchAllGo t.length uir.2.2
    | none => pubMatchAllGo t.length t) = _
  rw [h]
  rfl

/-- The publicMatches map of replacePrivateImage: a JavaScript Map built
with set (insertion order, later values overwrite in place). -/
def publicMatches (markdown : Str) : List (Str × Str) :=
  (pubMatchAll markdown).foldl (fun m p => setProp m p.1 p.2) []

/-- replacePrivateImage (fetch-data.ts:1041-1052): an empty markdown string
is falsy and returns the HTML unchanged; otherwise every private-image
match for each recorded uuid is replaced by the public URL that carried
that uuid, iterating the map in insertion order. -/
def replacePrivateImage (markdown html : Str) : Str :=
  if markdown = [] then html
  else (publicMatches markdown).foldl (fun h p => privReplaceAll p.2 p.1 h) html

/-! ## Data model of convert2json (fetch-data.ts:585-743, 1086-1358) -/

structure ReleaseAsset where
  name : Str
  contentType : Str
  downloadUrl : Str
  downloadCount : Int
  size : Int
deriving DecidableEq, Repr

structure GraphQlRelease where
  name : Str
  url : Str
  immutable : Bool
  isDraft : Bool
  description : Str
  descriptionHTML : Str
  createdAt : Str
  publishedAt : Str
  updatedAt : Str
  tagName : Str
  isPrerelease : Bool
  isLatest : Bool
  releaseAssets : Option (List ReleaseAsset)
deriving DecidableEq, Repr

structure Collaborator where
  login : Str
  name : Option Str
deriving DecidableEq, Repr

structure GraphQlRepository where
  name : Str
  description : Option Str
  url : Str
  homepageUrl : Option Str
  collaborators : List Collaborator
  readme : Option Str
  moduleJson : Option Str
  latestRelease : Option GraphQlRelease
  releases : List GraphQlRelease
  updatedAt : Str
  createdAt : Str
  stargazerCount : Int
deriving DecidableEq, Repr

inductive SkipReason where
  | INVALID_NAME
  | NO_DESCRIPTION
  | NO_VALID_RELEASES
  | RESERVED_NAME
  | NO_ZIP_ASSET
  | MODULE_ID_MISMATCH
  | MISSING_VERSION
  | MISSING_MODULE_PROP
deriving DecidableEq, Repr

/-- The string value of a SkipReason enum member (the enum is
string-valued in the source). -/
def SkipReason.str : SkipReason → Str
  | .INVALID_NAME => "INVALID_NAME".data
  | .NO_DESCRIPTION => "NO_DESCRIPTION".data
  | .NO_VALID_RELEASES => "NO_VALID_RELEASES".data
  | .RESERVED_NAME => "RESERVED_NAME".data
  | .NO_ZIP_ASSET => "NO_ZIP_ASSET".data
  | .MODULE_ID_MISMATCH => "MODULE_ID_MISMATCH".data
  | .MISSING_VERSION => "MISSING_VERSION".data
  | .MISSING_MODULE_PROP => "MISSING_MODULE_PROP".data

/-- The detail mapping of a SkipInfo: string keys, values that may be
undefined (the source stores possibly-undefined strings). -/
abbrev Details := List (Str × Option Str)

structure SkipInfo where
  reason : SkipReason
  message : Str
  details : Option Details
  shouldNotify : Bool
  tagName : Option Str
deriving DecidableEq, Repr

structure ModuleRelease where
  name : Str
  url : Str
  descriptionHTML : Str
  createdAt : Str
  publishedAt : Str
  updatedAt : Str
  tagName : Str
  isPrerelease : Bool
  releaseAssets : List ReleaseAsset
  version : Str
  versionCode : Str
deriving DecidableEq, Repr

/-- A final author entry {name, link}; name may be undefined when an
additionalAuthors entry without a name is appended. -/
structure Author where
  name : Option Str
  link : Str
deriving DecidableEq, Repr

structure ModuleJson where
  moduleId : Str
  moduleName : Str
  url : Str
  homepageUrl : Option Str
  authors : List Author
  latestRelease : Option Str
  latestReleaseTime : Str
  latestBetaReleaseTime : Str
  latestSnapshotReleaseTime : Str
  releases : List ModuleRelease
  readme : Option Str
  readmeHTML : Option Str
  summary : Option Str
  sourceUrl : Option Str
  updatedAt : Str
  createdAt : Str
  stargazerCount : Int
  metamodule : Bool
deriving DecidableEq, Repr

inductive ConvertResult where
  | success (module : ModuleJson)
  | failure (skipInfo : SkipInfo)
deriving DecidableEq, Repr

/-- An entry of moduleData.additionalAuthors after the source's
`a && typeof a === 'object'` filter; each used field may be absent. -/
structure AdditionalAuthor where
  type : Option Str
  name : Option Str
  link : Option Str
deriving DecidableEq, Repr

/-- The projection of JSON.parse(module.json) to the fields the source
reads: summary is present iff moduleData.summary is a truthy string,
likewise sourceUrl; additionalAuthors is present iff it is an array (its
non-object entries dropped as the source does); metamodule is true iff
moduleData.metamodule === true. -/
structure ModuleJsonData where
  summary : Option Str
  sourceUrl : Option Str
  additionalAuthors : Option (List AdditionalAuthor)
  metamodule : Bool
deriving DecidableEq, Repr

/-- The external collaborators of convert2json: the runzip probe (keyed by
download URL; none = subprocess failure), the markdown renderer, the
ellipsize library at width 512, and JSON.parse of module.json (none = a
thrown SyntaxError). -/
structure Ctx where
  fetch : Str → Option Str
  render : Str → Str
  ellipsize512 : Str → Str
  parseModuleJson : Str → Option ModuleJsonData

def zipContentType : Str := "application/zip".data

def RESERVED_NAMES : List Str :=
  [".github".data, "submission".data, "developers".data, "modules".data,
   "org.kernelsu.example".data, "module_release".data]

/-- A character of the class [a-zA-Z0-9._-]. -/
def nameChar (c : Char) : Bool :=
  asciiAlpha c || isDigitC c || c = '.' || c = '_' || c = '-'

/-- repo.name.match(/^[a-zA-Z][a-zA-Z0-9._-]+$/) is truthy: a letter
followed by one or more name characters. -/
def validModuleName (s : Str) : Bool :=
  match s with
  | [] => false
  | c :: rest => asciiAlpha c && !rest.isEmpty && rest.all nameChar

/-- A JavaScript falsy check on a possibly-absent string: undefined/null
or the empty string. -/
def strFalsy (o : Option Str) : Bool :=
  match o with
  | none => true
  | some s => s.isEmpty

def hasZipAsset (r : GraphQlRelease) : Bool :=
  match r.releaseAssets with
  | some assets => assets.any (fun a => a.contentType == zipContentType)
  | none => false

/-- The release pre-filter (fetch-data.ts:1138-1142): not a draft,
immutable, and some asset has content type application/zip (releaseAssets
is read through optional chaining). -/
def releasePreFilter (r : GraphQlRelease) : Bool :=
  !r.isDraft && r.immutable && hasZipAsset r

/-- Merge latestRelease into the release list when its tag is absent
(fetch-data.ts:1133-1135). -/
def mergedReleases (repo : GraphQlRepository) : List GraphQlRelease :=
  match repo.latestRelease with
  | some lr =>
    if (repo.releases.find? (fun r => r.tagName == lr.tagName)).isNone then
      repo.releases ++ [lr]
    else repo.releases
  | none => repo.releases

def filteredReleases (repo : GraphQlRepository) : List GraphQlRelease :=
  (mergedReleases repo).filter releasePreFilter

/-- A per-tag release skip record pushed onto releaseSkipReasons. -/
structure ReleaseSkip where
  tagName : Str
  reason : SkipReason
  details : Option Details
deriving DecidableEq, Repr

/-- node.releaseAssets.edges.find(asset zip) (fetch-data.ts:1152).  (When
releaseAssets is absent the source would throw on .edges; the pre-filter
makes that unreachable, modelled here as an empty asset list.) -/
def findZipAsset (r : GraphQlRelease) : Option ReleaseAsset :=
  (r.releaseAssets.getD []).find? (fun a => a.contentType == zipContentType)

/-- The per-release mapper of convert2json (fetch-data.ts:1151-1210): deep
validation with the first failing check winning, producing either a skip
record or an accepted release. -/
def processRelease (ctx : Ctx) (repoName : Str) (r : GraphQlRelease) :
    ReleaseSkip ⊕ ModuleRelease :=
  match findZipAsset r with
  | none => .inl { tagName := r.tagName, reason := .NO_ZIP_ASSET, details := none }
  | some zipAsset =>
    let moduleProps := extractModulePropsFromZip (ctx.fetch zipAsset.downloadUrl)
    if moduleProps.isEmpty then
      .inl { tagName := r.tagName, reason := .MISSING_MODULE_PROP, details := none }
    else if getProp moduleProps "id".data != some repoName then
      .inl { tagName := r.tagName, reason := .MODULE_ID_MISMATCH,
             details := some [("repoName".data, some repoName),
                              ("moduleId".data, getProp moduleProps "id".data)] }
    else if strFalsy (getProp moduleProps "version".data) ||
            strFalsy (getProp moduleProps "versionCode".data) then
      .inl { tagName := r.tagName, reason := .MISSING_VERSION,
             details := some [("version".data, getProp moduleProps "version".data),
                              ("versionCode".data, getProp moduleProps "versionCode".data)] }
    else
      .inr { name := r.name, url := r.url,
             descriptionHTML := replacePrivateImage r.description r.descriptionHTML,
             createdAt := r.createdAt, publishedAt := r.publishedAt,
             updatedAt := r.updatedAt, tagName := r.tagName,
             isPrerelease := r.isPrerelease,
             releaseAssets := r.releaseAssets.getD [],
             version := (getProp moduleProps "version".data).getD [],
             versionCode := (getProp moduleProps "versionCode".data).getD [] }

/-- The ordered mapper results over the filtered releases.  pMap preserves
input order (proved separately for the bounded mapper model), so the
sequence is the in-order image of processRelease. -/
def releaseResults (ctx : Ctx) (repo : GraphQlRepository) :
    List (ReleaseSkip ⊕ ModuleRelease) :=
  (filteredReleases repo).map (processRelease ctx repo.name)

def releaseSkipReasons (ctx : Ctx) (repo : GraphQlRepository) : List ReleaseSkip :=
  (releaseResults ctx repo).filterMap (fun x => x.getLeft?)

def acceptedReleases (ctx : Ctx) (repo : GraphQlRepository) : List ModuleRelease :=
  (releaseResults ctx repo).filterMap (fun x => x.getRight?)

def lowerC (c : Char) : Char :=
  if 'A' ≤ c && c ≤ 'Z' then Char.ofNat (c.toNat + 32) else c

/-- name.match(/^(snapshot|nightly).*/i) is truthy. -/
def snapshotName (s : Str) : Bool :=
  (dropLit "snapshot".data (s.map lowerC)).isSome ||
  (dropLit "nightly".data (s.map lowerC)).isSome

/-- The latest / beta / snapshot selection over the accepted releases
(fetch-data.ts:1279-1281). -/
def latestOfKind (releases : List ModuleRelease) :
    Option ModuleRelease × Option ModuleRelease × Option ModuleRelease :=
  let latestRelease := releases.find? (fun v => !v.isPrerelease)
  let latestBeta :=
    (releases.find? (fun v => v.isPrerelease && !snapshotName v.name)).orElse
      (fun _ => latestRelease)
  let latestSnap :=
    (releases.find? (fun v => v.isPrerelease && snapshotName v.name)).orElse
      (fun _ => latestBeta)
  (latestRelease, latestBeta, latestSnap)

/-- node.name || node.login for a collaborator. -/
def collaboratorName (c : Collaborator) : Str :=
  match c.name with
  | some n => if n.isEmpty then c.login else n
  | none => c.login

/-- The author-list assembly of convert2json (fetch-data.ts:1313-1333):
collaborators minus the remove set, with add-typed (or untyped) entries
appended unless the name is already present. -/
def buildAuthors (collaborators : List Collaborator)
    (additionalAuthors : List AdditionalAuthor) : List Author :=
  let collabs := collaborators.map (fun c => (collaboratorName c, c.login))
  let removeNames : List (Option Str) :=
    (additionalAuthors.filter (fun a => a.type == some "remove".data)).map (·.name)
  let base := collabs.filter
    (fun c => !(removeNames.contains (some c.1) || removeNames.contains (some c.2)))
  let baseAuthors : List Author :=
    base.map (fun c => { name := some c.1, link := "https://github.com/".data ++ c.2 })
  let addEntries := additionalAuthors.filter
    (fun a => a.type == some "add".data || strFalsy a.type)
  (addEntries.foldl
    (fun (st : List Author × List (Option Str)) a =>
      if st.2.contains a.name then st
      else (st.1 ++ [{ name := a.name, link := a.link.getD [] }], st.2 ++ [a.name]))
    (baseAuthors, baseAuthors.map (·.name))).1

def epochTime : Str := "1970-01-01T00:00:00Z".data

/-- latest?.publishedAt || '1970-01-01T00:00:00Z'. -/
def timeOrEpoch (o : Option ModuleRelease) : Str :=
  match o with
  | some r => if r.publishedAt.isEmpty then epochTime else r.publishedAt
  | none => epochTime

/-- An optional string through || null (empty collapses to null). -/
def orNull (o : Option Str) : Option Str :=
  match o with
  | some s => if s.isEmpty then none else some s
  | none => none

def msgReserved (n : Str) : Str :=
  "Skipped ".data ++ n ++ ": reserved name".data

def msgInvalidName (n : Str) : Str :=
  "Skipped ".data ++ n ++ ": invalid name format (must match ^[a-zA-Z][a-zA-Z0-9._-]+$)".data

def msgNoDescription (n : Str) : Str :=
  "Skipped ".data ++ n ++ ": missing repository description".data

def msgNoValidPre (n : Str) : Str :=
  "Skipped ".data ++ n ++ ": no valid releases (requires non-draft, immutable, with zip asset)".data

def msgLatestSkip (n : Str) (rs : ReleaseSkip) : Str :=
  "Skipped ".data ++ n ++ ": ".data ++ rs.reason.str ++
    " (latest release: ".data ++ rs.tagName ++ ")".data

def msgOlderIssues (n : Str) : Str :=
  "Skipped ".data ++ n ++ ": no valid releases (older releases have issues)".data

def msgNoValid (n : Str) : Str :=
  "Skipped ".data ++ n ++ ": no valid releases".data

/-- The latestSkip lookup (fetch-data.ts:1237-1240): a falsy (absent or
empty) latest-release tag yields null, otherwise the first skip record
whose tag equals it. -/
def latestSkipOf (repo : GraphQlRepository) (skips : List ReleaseSkip) :
    Option ReleaseSkip :=
  match repo.latestRelease.map (·.tagName) with
  | some t => if t.isEmpty then none else skips.find? (fun rr => rr.tagName == t)
  | none => none

/-- The SkipInfo chosen when no release was accepted
(fetch-data.ts:1222-1273). -/
def noValidReleasesSkipInfo (repo : GraphQlRepository)
    (filtered : List GraphQlRelease) (skips : List ReleaseSkip) : SkipInfo :=
  if filtered.isEmpty then
    { reason := .NO_VALID_RELEASES, message := msgNoValidPre repo.name,
      details := none, shouldNotify := true, tagName := none }
  else if !skips.isEmpty then
    match latestSkipOf repo skips with
    | some ls =>
      { reason := ls.reason, message := msgLatestSkip repo.name ls,
        details := ls.details, shouldNotify := true, tagName := some ls.tagName }
    | none =>
      { reason := .NO_VALID_RELEASES, message := msgOlderIssues repo.name,
        details := none, shouldNotify := false, tagName := none }
  else
    { reason := .NO_VALID_RELEASES, message := msgNoValid repo.name,
      details := none, shouldNotify := true, tagName := none }

/-- convert2json (fetch-data.ts:1088-1358). -/
def convert2json (ctx : Ctx) (repo : GraphQlRepository) : ConvertResult :=
  if RESERVED_NAMES.contains repo.name then
    .failure { reason := .RESERVED_NAME, message := msgReserved repo.name,
               details := none, shouldNotify := true, tagName := none }
  else if !validModuleName repo.name then
    .failure { reason := .INVALID_NAME, message := msgInvalidName repo.name,
               details := some [("repoName".data, some repo.name)],
               shouldNotify := true, tagName := none }
  else if strFalsy repo.description then
    .failure { reason := .NO_DESCRIPTION, message := msgNoDescription repo.name,
               details := none, shouldNotify := true, tagName := none }
  else
    let releases := acceptedReleases ctx repo
    if releases.isEmpty then
      .failure (noValidReleasesSkipInfo repo (filteredReleases repo)
        (releaseSkipReasons ctx repo))
    else
      let lk := latestOfKind releases
      let readmeText : Option Str :=
        match repo.readme with
        | some t => if (trimL t).isEmpty then none else some (trimL t)
        | none => none
      let mjd : Option ModuleJsonData := repo.moduleJson.bind ctx.parseModuleJson
      .success {
        moduleId := repo.name,
        moduleName := repo.description.getD [],
        url := repo.url,
        homepageUrl := orNull repo.homepageUrl,
        authors := buildAuthors repo.collaborators
          ((mjd.bind (·.additionalAuthors)).getD []),
        latestRelease := orNull (lk.1.map (·.name)),
        latestReleaseTime := timeOrEpoch lk.1,
        latestBetaReleaseTime := timeOrEpoch lk.2.1,
        latestSnapshotReleaseTime := timeOrEpoch lk.2.2,
        releases := releases,
        readme := readmeText,
        readmeHTML := readmeText.map ctx.render,
        summary := (mjd.bind (·.summary)).map
          (fun s => trimL (ctx.ellipsize512 (trimL s))),
        sourceUrl := (mjd.bind (·.sourceUrl)).map
          (fun s => trimL (s.filter (fun c => !(c = '\r' || c = '\n')))),
        updatedAt := repo.updatedAt,
        createdAt := repo.createdAt,
        stargazerCount := repo.stargazerCount,
        metamodule := (mjd.map (·.metamodule)).getD false }

/-! ## Orchestrator: modes, exit status, catalog persistence
(fetch-data.ts:844-847, 1360-1483) -/

/-- REPO parsing (fetch-data.ts:1369-1371): an unset or empty REPO is
falsy; otherwise take the part after the first '/' when one is present. -/
def modulePackageOf (repoEnv : Option Str) : Option Str :=
  match repoEnv with
  | none => none
  | some s =>
    if s.isEmpty then none
    else if s.contains '/' then some ((splitOnChar '/' s).getD 1 [])
    else some s

/-- Whether the run is an incremental update: REPO names a module and the
modules.json cache file exists (fetch-data.ts:1375). -/
def incrementalMode (repoEnv : Option Str) (cacheExists : Bool) : Bool :=
  (modulePackageOf repoEnv).isSome && cacheExists

/-- The process exit status, from the control flow of the module-level
token guard (fetch-data.ts:844-847) and main (fetch-data.ts:1360-1483):
a missing token exits 1 before any work; in incremental mode a null
result.repository logs 'Repository not found' and returns (so the process
exits 0), and a failed convert2json calls process.exit(1); every other
path runs to completion and exits 0.  repository = none models a GraphQL
response whose repository field is null. -/
def exitCode (ctx : Ctx) (tokenSet : Bool) (repoEnv : Option Str)
    (cacheExists : Bool) (repository : Option GraphQlRepository) : Nat :=
  if !tokenSet then 1
  else if incrementalMode repoEnv cacheExists then
    match repository with
    | none => 0
    | some repo =>
      match convert2json ctx repo with
      | .failure _ => 1
      | .success _ => 0
  else 0

/-- Filesystem operations relevant to catalog persistence. -/
inductive FsOp where
  | writeFile (path content : Str)
  | rename (src dst : Str)
deriving DecidableEq, Repr

/-- The catalog write performed by main in both modes (fetch-data.ts:1421
and fetch-data.ts:1478): a single direct fs.writeFileSync of the
serialized module list onto the catalog path. -/
def writeModulesCache (modulesCachePath content : Str) : List FsOp :=
  [FsOp.writeFile modulesCachePath content]

/-- The sort key of the catalog (fetch-data.ts:1407-1418, 1464-1475):
Math.max of the three parsed release times.  Date.parse is external and
is modelled as an integer-valued oracle on timestamp strings. -/
def releaseTimeKey (dateParse : Str → Int) (m : ModuleJson) : Int :=
  max (max (dateParse m.latestReleaseTime) (dateParse m.latestBetaReleaseTime))
    (dateParse m.latestSnapshotReleaseTime)

/-- Array.prototype.sort with comparator (a, b) => bTime - aTime is a
stable sort placing larger keys first (ECMA-262 requires sort stability);
it is modelled as the canonical stable insertion sort for that order. -/
def sortInsert (dateParse : Str → Int) (m : ModuleJson) :
    List ModuleJson → List ModuleJson
  | [] => [m]
  | x :: xs =>
    if releaseTimeKey dateParse x ≤ releaseTimeKey dateParse m then m :: x :: xs
    else x :: sortInsert dateParse m xs

def sortByReleaseTime (dateParse : Str → Int) :
    List ModuleJson → List ModuleJson
  | [] => []
  | m :: ms => sortInsert dateParse m (sortByReleaseTime dateParse ms)

/-- The full-mode catalog before serialization (fetch-data.ts:1459-1476):
the successful modules in mapper order, sorted. -/
def fullModeCatalog (dateParse : Str → Int) (modules : List ModuleJson) :
    List ModuleJson :=
  sortByReleaseTime dateParse modules

/-- The incremental-mode catalog before serialization
(fetch-data.ts:1402-1419): drop the entry with the updated module's id,
prepend the new record, and sort. -/
def incrementalCatalog (dateParse : Str → Int) (existing : List ModuleJson)
    (modulePackage : Str) (m : ModuleJson) : List ModuleJson :=
  sortByReleaseTime dateParse
    (m :: existing.filter (fun x => x.moduleId != modulePackage))

/-! ## The bounded concurrent mapper pMap (fetch-data.ts:556-583)

The event-loop execution of pMap is modelled as an interpreter over an
explicit state: the list of in-flight task indices (the `executing`
array), the completed (index, value) pairs, and a high-water mark of the
in-flight count.  A schedule chooses, at every await point, which
in-flight promise settles; `await Promise.race` completes one scheduled
task, and the trailing `await Promise.all` drains the rest in schedule
order.  The mapper is pure, so a task's value is determined by its
index. -/

structure PMapState (β : Type) where
  inflight : List Nat
  results : List (Nat × β)
  hwm : Nat
deriving Repr

/-- One promise settlement: the schedule entry picks an in-flight task
(modulo the in-flight count); its result is recorded at its own index and
it is removed from the executing list (the splice in fetch-data.ts:571). -/
def completeOne (vals : Nat → β) (st : PMapState β) (choice : Nat) : PMapState β :=
  match st.inflight with
  | [] => st
  | _ :: _ =>
    let j := choice % st.inflight.length
    let i := st.inflight.getD j 0
    { st with inflight := st.inflight.eraseIdx j,
              results := st.results ++ [(i, vals i)] }

/-- The main loop of pMap: start each index in order; once the executing
list has reached the concurrency cap, await one settlement before the
next iteration. -/
def runStarts (vals : Nat → β) (K : Nat) :
    List Nat → List Nat → PMapState β → PMapState β × List Nat
  | [], sched, st => (st, sched)
  | i :: rest, sched, st =>
    let st1 : PMapState β :=
      { st with inflight := st.inflight ++ [i],
                hwm := max st.hwm (st.inflight.length + 1) }
    if K ≤ st1.inflight.length then
      runStarts vals K rest sched.tail (completeOne vals st1 (sched.headD 0))
    else
      runStarts vals K rest sched st1

/-- The trailing await Promise.all(executing): settle everything left. -/
def runDrain (vals : Nat → β) : Nat → List Nat → PMapState β → PMapState β
  | 0, _, st => st
  | fuel + 1, sched, st =>
    runDrain vals fuel sched.tail (completeOne vals st (sched.headD 0))

/-- A complete execution of pMap on n tasks with cap K under a given
schedule. -/
def pMapRun (vals : Nat → β) (n K : Nat) (sched : List Nat) : PMapState β :=
  let p := runStarts vals K (List.range n) sched ⟨[], [], 0⟩
  runDrain vals p.1.inflight.length p.2 p.1

/-- The value returned by pMap: the results array read back in index
order (fetch-data.ts:567 stores each result at its input index). -/
def pMapOutput [Inhabited α] (items : List α) (mapper : α → Nat → β)
    (K : Nat) (sched : List Nat) : List (Option β) :=
  let vals := fun i => mapper (items.getD i default) i
  let st := pMapRun vals items.length K sched
  (List.range items.length).map
    (fun i => (st.results.find? (fun p => p.1 == i)).map (·.2))

/-! ## Claim C3: the property-file probe -/

theorem takeWhile_append_sat {p : Char → Bool} {k : Str} {c : Char} {v : Str}
    (hk : ∀ x ∈ k, p x = true) (hc : p c = false) :
    (k ++ c :: v).takeWhile p = k := by
  induction k with
  | nil => simp [List.takeWhile, hc]
  | cons a as ih =>
    have ha : p a = true := hk a (by simp)
    simp only [List.cons_append, List.takeWhile_cons, ha, if_pos]
    rw [ih (fun x hx => hk x (by simp [hx]))]

theorem dropWhile_append_sat {p : Char → Bool} {k : Str} {c : Char} {v : Str}
    (hk : ∀ x ∈ k, p x = true) (hc : p c = false) :
    (k ++ c :: v).dropWhile p = c :: v := by
  induction k with
  | nil => simp [List.dropWhile, hc]
  | cons a as ih =>
    have ha : p a = true := hk a (by simp)
    simp only [List.cons_append, List.dropWhile_cons, ha, if_pos]
    exact ih (fun x hx => hk x (by simp [hx]))

theorem getProp_map_set {props : PropMap} {k v : Str} :
    getProp (props.map (fun p => if p.1 == k then (k, v) else p)) k =
      if props.any (fun p => p.1 == k) then some v else none := by
  induction props with
  | nil => simp [getProp]
  | cons p ps ih =>
    by_cases hp : p.1 = k
    · simp [getProp, List.find?, hp] at ih ⊢
    · have hp' : (p.1 == k) = false := by simp [hp]
      simp only [List.map_cons, hp', if_neg, Bool.false_eq_true, not_false_iff,
        List.any_cons, Bool.false_or]
      simpa [getProp, List.find?_cons, hp'] using ih

theorem getProp_append_new {props : PropMap} {k v : Str}
    (h : props.any (fun p => p.1 == k) = false) :
    getProp (props ++ [(k, v)]) k = some v := by
  induction props with
  | nil => simp [getProp, List.find?]
  | cons p ps ih =>
    simp only [List.any_cons, Bool.or_eq_false_iff] at h
    simpa [getProp, List.find?_cons, h.1] using ih h.2

theorem takeWhile_all {p : Char → Bool} {l : Str} (h : ∀ x ∈ l, p x = true) :
    l.takeWhile p = l := by
  induction l with
  | nil => rfl
  | cons a as ih =>
    simp only [List.takeWhile_cons, h a (by simp), if_pos, List.cons.injEq, true_and]
    exact ih (fun x hx => h x (by simp [hx]))

theorem dropWhile_all {p : Char → Bool} {l : Str} (h : ∀ x ∈ l, p x = true) :
    l.dropWhile p = [] := by
  induction l with
  | nil => rfl
  | cons a as ih =>
    simp only [List.dropWhile_cons, h a (by simp), if_pos]
    exact ih (fun x hx => h x (by simp [hx]))

theorem getProp_setProp (props : PropMap) (k v : Str) :
    getProp (setProp props k v) k = some v := by
  unfold setProp
  by_cases h : props.any (fun p => p.1 == k) = true
  · simp only [h, if_pos]
    rw [getProp_map_set]
    simp [h]
  · have h' : props.any (fun p => p.1 == k) = false := by
      exact Bool.not_eq_true _ ▸ eq_false_of_ne_true h
    simp only [h', Bool.false_eq_true, if_neg, not_false_iff]
    exact getProp_append_new h'

/-- C3: the property-file probe parses module.prop line by line: the text
splits on newlines and folds the per-line rule; a line that trims to
nothing is skipped; a line whose first character after trimming is '#' is
skipped; otherwise the first '=' splits the line, a nonempty key is
required, and the trimmed key is bound to the trimmed value, a later
binding overwriting an earlier one (the last occurrence wins on lookup);
and a failed extraction yields the empty PropertyMap. -/
theorem prop_probe_spec :
    (∀ content : Str, parseModulePropContent content =
        (splitOnChar '\n' content).foldl processPropLine []) ∧
    (∀ props line, trimL line = [] → processPropLine props line = props) ∧
    (∀ props line, (trimL line).head? = some '#' →
        processPropLine props line = props) ∧
    (∀ props line k v, trimL line = k ++ '=' :: v → k ≠ [] →
        k.head? ≠ some '#' → (∀ c ∈ k, c ≠ '=') →
        processPropLine props line = setProp props (trimL k) (trimL v)) ∧
    (∀ props line, (∀ c ∈ trimL line, c ≠ '=') →
        processPropLine props line = props) ∧
    (∀ props k v, getProp (setProp props k v) k = some v) ∧
    extractModulePropsFromZip none = [] := by
  refine ⟨fun _ => rfl, ?_, ?_, ?_, ?_, getProp_setProp, rfl⟩
  · intro props line h
    simp [processPropLine, h]
  · intro props line h
    have hne : trimL line ≠ [] := by
      intro he
      rw [he] at h
      simp at h
    simp [processPropLine, hne, h]
  · intro props line k v htrim hk hhash hkeq
    have hne : trimL line ≠ [] := by
      rw [htrim]
      simp
    have hhead : (trimL line).head? ≠ some '#' := by
      rw [htrim]
      cases k with
      | nil => exact absurd rfl hk
      | cons a as =>
        simpa using fun ha => hhash (by simp [ha])
    have hsat : ∀ x ∈ k, (x != '=') = true := by
      intro x hx
      simpa using hkeq x hx
    have htw : (trimL line).takeWhile (fun c => c != '=') = k := by
      rw [htrim]
      exact takeWhile_append_sat hsat (by simp)
    have hdw : (trimL line).dropWhile (fun c => c != '=') = '=' :: v := by
      rw [htrim]
      exact dropWhile_append_sat hsat (by simp)
    simp only [processPropLine, List.span_eq_take_drop, htw, hdw]
    simp [hne, hhead, hk]
  · intro props line h
    by_cases hne : trimL line = []
    · simp [processPropLine, hne]
    · by_cases hh : (trimL line).head? = some '#'
      · simp [processPropLine, hne, hh]
      · have hsat : ∀ x ∈ trimL line, (x != '=') = true := by
          intro x hx
          simpa using h x hx
        have htw := takeWhile_all hsat
        have hdw := dropWhile_all hsat
        simp [processPropLine, List.span_eq_take_drop, htw, hdw, hne, hh]

/-- Witness for C3: a concrete line with surrounding spaces parses to the
trimmed binding, via prop_probe_spec. -/
theorem prop_probe_spec_witness :
    processPropLine [] " id = foo ".data =
      setProp [] (trimL "id ".data) (trimL " foo".data) ∧
    getProp (setProp [] "a".data "1".data) "a".data = some "1".data := by
  constructor
  · exact prop_probe_spec.2.2.2.1 [] " id = foo ".data "id ".data " foo".data
      (by decide) (by decide) (by decide) (by decide)
  · exact prop_probe_spec.2.2.2.2.2.1 [] "a".data "1".data

/-! ## Claim C4: process exit status -/

/-- A context with trivial oracles, for concrete evaluation. -/
def ctxTrivial : Ctx :=
  { fetch := fun _ => none, render := id, ellipsize512 := id,
    parseModuleJson := fun _ => none }

/-- Counterexample to C4 as stated: in incremental mode with the target
repository absent (result.repository null), main logs 'Repository not
found' and returns, so the process exits 0 - not non-zero as claimed. -/
theorem exit_code_claim_counterexample :
    ¬ (∀ (ctx : Ctx) (tokenSet : Bool) (repoEnv : Option Str) (cacheExists : Bool)
        (repository : Option GraphQlRepository),
        exitCode ctx tokenSet repoEnv cacheExists repository ≠ 0 ↔
          (tokenSet = false ∨
           (incrementalMode repoEnv cacheExists = true ∧ repository = none) ∨
           (incrementalMode repoEnv cacheExists = true ∧
             ∃ repo si, repository = some repo ∧
               convert2json ctx repo = .failure si))) := by
  intro h
  have him : incrementalMode (some "m".data) true = true := by decide
  have hne := (h ctxTrivial true (some "m".data) true none).mpr
    (Or.inr (Or.inl ⟨him, rfl⟩))
  exact hne (by decide)

/-- C4 amended: the process exits non-zero exactly when the GRAPHQL_TOKEN
environment variable is unset or the incremental module fails validation;
when the repository targeted by incremental mode does not exist the
process logs an error but still exits 0. -/
theorem exit_code_amended (ctx : Ctx) (tokenSet : Bool) (repoEnv : Option Str)
    (cacheExists : Bool) (repository : Option GraphQlRepository) :
    exitCode ctx tokenSet repoEnv cacheExists repository ≠ 0 ↔
      (tokenSet = false ∨
        (incrementalMode repoEnv cacheExists = true ∧
          ∃ repo si, repository = some repo ∧
            convert2json ctx repo = .failure si)) := by
  cases tokenSet with
  | false => simp [exitCode]
  | true =>
    by_cases him : incrementalMode repoEnv cacheExists = true
    · cases repository with
      | none => simp [exitCode, him]
      | some repo =>
        cases hc : convert2json ctx repo with
        | failure si =>
          have h0 : exitCode ctx true repoEnv cacheExists (some repo) = 1 := by
            simp [exitCode, him, hc]
          rw [h0]
          constructor
          · intro _
            exact Or.inr ⟨him, repo, si, rfl, hc⟩
          · intro _
            exact one_ne_zero
        | success m =>
          have h0 : exitCode ctx true repoEnv cacheExists (some repo) = 0 := by
            simp [exitCode, him, hc]
          rw [h0]
          constructor
          · intro hne
            exact absurd rfl hne
          · rintro (hfalse | ⟨-, repo', si', hrepo, hconv⟩)
            · exact absurd hfalse (by simp)
            · have hrr : repo = repo' := by
                injection hrepo
              rw [← hrr, hc] at hconv
              exact absurd hconv (by simp)
    · have him' : incrementalMode repoEnv cacheExists = false := by
        simpa using him
      simp [exitCode, him']

/-! ## Claim C5: catalog write atomicity -/

/-- Counterexample to C5 as stated: the catalog write is not a
write-to-temporary followed by a rename; it is a single operation. -/
theorem atomic_write_counterexample :
    ¬ ∃ tmp, writeModulesCache "modules.json".data "[]".data =
      [FsOp.writeFile tmp "[]".data, FsOp.rename tmp "modules.json".data] := by
  rintro ⟨tmp, h⟩
  have hlen := congrArg List.length h
  simp [writeModulesCache] at hlen

/-- C5 amended: every write of the on-disk catalog (in both full and
incremental mode) is a single direct fs.writeFileSync of the content onto
the catalog path; no temporary path and no rename are involved, so
atomicity with respect to concurrent readers is not provided. -/
theorem write_modules_cache_direct (path content : Str) :
    writeModulesCache path content = [FsOp.writeFile path content] := rfl

/-! ## Claim C6: catalog ordering and stability -/

theorem mem_sortInsert {dp : Str → Int} {m b : ModuleJson} {l : List ModuleJson} :
    b ∈ sortInsert dp m l ↔ b = m ∨ b ∈ l := by
  induction l with
  | nil => simp [sortInsert]
  | cons x xs ih =>
    by_cases hc : releaseTimeKey dp x ≤ releaseTimeKey dp m
    · simp [sortInsert, hc]
    · simp only [sortInsert, hc, if_neg, not_false_iff, List.mem_cons, ih]
      tauto

theorem sortInsert_pairwise {dp : Str → Int} {m : ModuleJson} {l : List ModuleJson}
    (h : l.Pairwise (fun a b => releaseTimeKey dp b ≤ releaseTimeKey dp a)) :
    (sortInsert dp m l).Pairwise
      (fun a b => releaseTimeKey dp b ≤ releaseTimeKey dp a) := by
  induction l with
  | nil => simp [sortInsert]
  | cons x xs ih =>
    rw [List.pairwise_cons] at h
    obtain ⟨hx, hxs⟩ := h
    by_cases hc : releaseTimeKey dp x ≤ releaseTimeKey dp m
    · simp only [sortInsert, hc, if_pos]
      rw [List.pairwise_cons]
      refine ⟨?_, List.pairwise_cons.mpr ⟨hx, hxs⟩⟩
      intro b hb
      rcases List.mem_cons.mp hb with hbx | hbxs
      · exact hbx ▸ hc
      · exact le_trans (hx b hbxs) hc
    · simp only [sortInsert, hc, if_neg, not_false_iff]
      rw [List.pairwise_cons]
      refine ⟨?_, ih hxs⟩
      intro b hb
      rcases mem_sortInsert.mp hb with hbm | hbxs
      · exact hbm ▸ le_of_lt (lt_of_not_le hc)
      · exact hx b hbxs

theorem sortByReleaseTime_pairwise (dp : Str → Int) (l : List ModuleJson) :
    (sortByReleaseTime dp l).Pairwise
      (fun a b => releaseTimeKey dp b ≤ releaseTimeKey dp a) := by
  induction l with
  | nil => simp [sortByReleaseTime]
  | cons m ms ih => exact sortInsert_pairwise ih

theorem filter_sortInsert {dp : Str → Int} {m : ModuleJson} {l : List ModuleJson}
    {k : Int} :
    (sortInsert dp m l).filter (fun x => releaseTimeKey dp x == k) =
      if releaseTimeKey dp m == k then
        m :: l.filter (fun x => releaseTimeKey dp x == k)
      else l.filter (fun x => releaseTimeKey dp x == k) := by
  induction l with
  | nil =>
    by_cases hm : releaseTimeKey dp m = k
    · simp [sortInsert, List.filter_cons, hm]
    · simp [sortInsert, List.filter_cons, hm]
  | cons x xs ih =>
    by_cases hc : releaseTimeKey dp x ≤ releaseTimeKey dp m
    · simp only [sortInsert, hc, if_pos, List.filter_cons]
    · simp only [sortInsert, hc, if_neg, not_false_iff, List.filter_cons, ih]
      by_cases hm : releaseTimeKey dp m = k
      · have hxne : releaseTimeKey dp x ≠ k := by
          rw [← hm]
          exact ne_of_gt (lt_of_not_le hc)
        have hx : (releaseTimeKey dp x == k) = false := by simp [hxne]
        have hmeq : (releaseTimeKey dp m == k) = true := by simp [hm]
        rw [hx, hmeq]
        simp
      · have hmf : (releaseTimeKey dp m == k) = false := by simp [hm]
        rw [hmf]
        simp

theorem filter_sortByReleaseTime (dp : Str → Int) (l : List ModuleJson) (k : Int) :
    (sortByReleaseTime dp l).filter (fun x => releaseTimeKey dp x == k) =
      l.filter (fun x => releaseTimeKey dp x == k) := by
  induction l with
  | nil => rfl
  | cons m ms ih =>
    show (sortInsert dp m (sortByReleaseTime dp ms)).filter _ = _
    rw [filter_sortInsert, ih, List.filter_cons]

/-- C6: both catalog outputs are sorted in non-increasing order of
max(latestReleaseTime, latestBetaReleaseTime, latestSnapshotReleaseTime),
and for every key value the subsequence of modules carrying that key
equals the corresponding subsequence of the input (so equal-key modules
keep their input order: the sort is stable).  The incremental input
sequence is the updated module prepended to the surviving entries. -/
theorem catalog_sort_spec (dateParse : Str → Int) (modules existing : List ModuleJson)
    (pkg : Str) (m : ModuleJson) (k : Int) :
    (fullModeCatalog dateParse modules).Pairwise
      (fun a b => releaseTimeKey dateParse b ≤ releaseTimeKey dateParse a) ∧
    (fullModeCatalog dateParse modules).filter
        (fun x => releaseTimeKey dateParse x == k) =
      modules.filter (fun x => releaseTimeKey dateParse x == k) ∧
    (incrementalCatalog dateParse existing pkg m).Pairwise
      (fun a b => releaseTimeKey dateParse b ≤ releaseTimeKey dateParse a) ∧
    (incrementalCatalog dateParse existing pkg m).filter
        (fun x => releaseTimeKey dateParse x == k) =
      (m :: existing.filter (fun x => x.moduleId != pkg)).filter
        (fun x => releaseTimeKey dateParse x == k) :=
  ⟨sortByReleaseTime_pairwise dateParse modules,
   filter_sortByReleaseTime dateParse modules k,
   sortByReleaseTime_pairwise dateParse _,
   filter_sortByReleaseTime dateParse _ k⟩

/-! ## Claims C7 and C8: the bounded concurrent mapper -/

theorem perm_get_cons_eraseIdx (l : List Nat) (j : Nat) (h : j < l.length) :
    l.Perm (l.get ⟨j, h⟩ :: l.eraseIdx j) := by
  induction l generalizing j with
  | nil => cases h
  | cons a as ih =>
    cases j with
    | zero => simp
    | succ j' =>
      have h' : j' < as.length := by simpa using h
      have step : (a :: as).Perm (a :: (as.get ⟨j', h'⟩ :: as.eraseIdx j')) :=
        List.Perm.cons a (ih j' h')
      have swap : (a :: (as.get ⟨j', h'⟩ :: as.eraseIdx j')).Perm
          (as.get ⟨j', h'⟩ :: (a :: as.eraseIdx j')) := List.Perm.swap _ _ _
      have : (a :: as).eraseIdx (j' + 1) = a :: as.eraseIdx j' := rfl
      rw [List.get_cons_succ, this]
      exact step.trans swap

/-- The pMap execution invariant: every recorded result is the task's own
value, and the recorded indices together with the in-flight indices are a
permutation of the indices started so far. -/
def PInv (vals : Nat → β) (st : PMapState β) (S : List Nat) : Prop :=
  (∀ p ∈ st.results, p.2 = vals p.1) ∧
  (st.inflight ++ st.results.map Prod.fst).Perm S

theorem completeOne_inv {vals : Nat → β} {st : PMapState β} {S : List Nat}
    (h : PInv vals st S) (c : Nat) : PInv vals (completeOne vals st c) S := by
  obtain ⟨hv, hp⟩ := h
  match hin : st.inflight with
  | [] => simpa [completeOne, hin] using ⟨hv, hp⟩
  | a :: as =>
    have hlen : 0 < st.inflight.length := by rw [hin]; simp
    have hj : c % st.inflight.length < st.inflight.length :=
      Nat.mod_lt _ hlen
    set j := c % st.inflight.length with hjdef
    have hget : st.inflight.getD j 0 = st.inflight.get ⟨j, hj⟩ :=
      List.getD_eq_get _ _ hj
    constructor
    · intro p hpmem
      simp only [completeOne, hin] at hpmem
      rw [← hin] at hpmem
      simp only [List.mem_append, List.mem_singleton] at hpmem
      rcases hpmem with hold | hnew
      · exact hv p hold
      · rw [hnew]
    · simp only [completeOne, hin]
      rw [← hin]
      have hperm := perm_get_cons_eraseIdx st.inflight j hj
      rw [← hget] at hperm
      set i := st.inflight.getD j 0 with hidef
      set E := st.inflight.eraseIdx j with hEdef
      set F := st.results.map Prod.fst with hFdef
      have hmap : (st.results ++ [(i, vals i)]).map Prod.fst = F ++ [i] := by
        simp [hFdef]
      rw [hmap]
      have q0 : E ++ (F ++ [i]) = (E ++ F) ++ [i] := (List.append_assoc E F [i]).symm
      have q1 : ((E ++ F) ++ [i]).Perm ((i :: E) ++ F) := List.perm_append_comm
      have q3 : ((i :: E) ++ F).Perm (st.inflight ++ F) :=
        List.Perm.append_right F hperm.symm
      rw [q0]
      exact (q1.trans q3).trans hp

theorem completeOne_hwm (vals : Nat → β) (st : PMapState β) (c : Nat) :
    (completeOne vals st c).hwm = st.hwm := by
  match hin : st.inflight with
  | [] => simp [completeOne, hin]
  | a :: as => simp [completeOne, hin]

theorem completeOne_length {vals : Nat → β} {st : PMapState β} {c : Nat}
    (h : st.inflight ≠ []) :
    (completeOne vals st c).inflight.length = st.inflight.length - 1 := by
  match hin : st.inflight with
  | [] => exact absurd hin h
  | a :: as =>
    have hlen : 0 < st.inflight.length := by rw [hin]; simp
    have hj : c % st.inflight.length < st.inflight.length := Nat.mod_lt _ hlen
    simp only [completeOne, hin]
    rw [← hin]
    exact List.length_eraseIdx_of_lt hj

theorem runStarts_inv {vals : Nat → β} {K : Nat} :
    ∀ (toStart sched : List Nat) (st : PMapState β) (S : List Nat),
    PInv vals st S → PInv vals (runStarts vals K toStart sched st).1 (S ++ toStart) := by
  intro toStart
  induction toStart with
  | nil =>
    intro sched st S h
    simpa [runStarts] using h
  | cons i rest ih =>
    intro sched st S h
    obtain ⟨hv, hp⟩ := h
    have hpush : PInv vals
        { st with inflight := st.inflight ++ [i],
                  hwm := max st.hwm (st.inflight.length + 1) } (S ++ [i]) := by
      refine ⟨hv, ?_⟩
      have p1 : ((st.inflight ++ [i]) ++ st.results.map Prod.fst).Perm
          ((st.inflight ++ st.results.map Prod.fst) ++ [i]) := by
        rw [List.append_assoc, List.append_assoc]
        exact List.Perm.append_left st.inflight List.perm_append_comm
      exact p1.trans (List.Perm.append_right [i] hp)
    have hassoc : (S ++ [i]) ++ rest = S ++ i :: rest := by simp
    have hstep : (runStarts vals K (i :: rest) sched st).1 =
        (if K ≤ st.inflight.length + 1 then
          (runStarts vals K rest sched.tail
            (completeOne vals
              { st with inflight := st.inflight ++ [i],
                        hwm := max st.hwm (st.inflight.length + 1) }
              (sched.headD 0))).1
        else
          (runStarts vals K rest sched
            { st with inflight := st.inflight ++ [i],
                      hwm := max st.hwm (st.inflight.length + 1) }).1) := by
      by_cases hcap : K ≤ st.inflight.length + 1
      · rw [if_pos hcap]
        simp [runStarts, hcap]
      · rw [if_neg hcap]
        simp [runStarts, hcap]
    rw [hstep]
    by_cases hcap : K ≤ st.inflight.length + 1
    · rw [if_pos hcap, ← hassoc]
      exact ih _ _ _ (completeOne_inv hpush _)
    · rw [if_neg hcap, ← hassoc]
      exact ih _ _ _ hpush

theorem runDrain_inv {vals : Nat → β} :
    ∀ (fuel : Nat) (sched : List Nat) (st : PMapState β) (S : List Nat),
    PInv vals st S → PInv vals (runDrain vals fuel sched st) S := by
  intro fuel
  induction fuel with
  | zero => intro _ st S h; exact h
  | succ n ih => intro sched st S h; exact ih _ _ _ (completeOne_inv h _)

theorem runDrain_empties {vals : Nat → β} :
    ∀ (fuel : Nat) (sched : List Nat) (st : PMapState β),
    st.inflight.length = fuel → (runDrain vals fuel sched st).inflight = [] := by
  intro fuel
  induction fuel with
  | zero =>
    intro _ st h
    exact List.length_eq_zero.mp h
  | succ n ih =>
    intro sched st h
    have hne : st.inflight ≠ [] := by
      intro he
      rw [he] at h
      simp at h
    refine ih _ _ ?_
    rw [completeOne_length hne, h]
    omega

theorem pMapRun_results (vals : Nat → β) (n K : Nat) (sched : List Nat) :
    (∀ p ∈ (pMapRun vals n K sched).results, p.2 = vals p.1) ∧
    ((pMapRun vals n K sched).results.map Prod.fst).Perm (List.range n) ∧
    (pMapRun vals n K sched).inflight = [] := by
  have h0 : PInv vals ⟨[], [], 0⟩ [] := ⟨by simp, by simp⟩
  have h1 := @runStarts_inv β vals K (List.range n) sched
    (⟨[], [], 0⟩ : PMapState β) [] h0
  unfold pMapRun
  set p := runStarts vals K (List.range n) sched (⟨[], [], 0⟩ : PMapState β) with hpdef
  have h2 := runDrain_inv p.1.inflight.length p.2 p.1 ([] ++ List.range n) h1
  have h3 := @runDrain_empties β vals p.1.inflight.length p.2 p.1 rfl
  obtain ⟨hv, hperm⟩ := h2
  rw [h3] at hperm
  simp only [List.nil_append] at hperm
  exact ⟨hv, by simpa using hperm, h3⟩

theorem lookup_result {l : List (Nat × β)} {vals : Nat → β} {i : Nat}
    (hv : ∀ p ∈ l, p.2 = vals p.1) (hi : i ∈ l.map Prod.fst) :
    (l.find? (fun p => p.1 == i)).map (·.2) = some (vals i) := by
  induction l with
  | nil => simp at hi
  | cons p ps ih =>
    by_cases hp : p.1 = i
    · have hpt : (p.1 == i) = true := by simp [hp]
      simp only [List.find?_cons, hpt, Option.map_some']
      have := hv p (by simp)
      rw [this, hp]
    · have hf : (p.1 == i) = false := by simp [hp]
      simp only [List.find?_cons, hf]
      refine ih (fun q hq => hv q (by simp [hq])) ?_
      simp only [List.map_cons, List.mem_cons] at hi
      rcases hi with he | hm
      · exact absurd he.symm hp
      · exact hm

/-- C7: for every input list, mapper and positive cap, and regardless of
the completion schedule, pMap returns a sequence of the input's length
whose i-th element is the mapper's result on the i-th input. -/
theorem pMap_preserves_order {α β : Type} [Inhabited α] (items : List α)
    (mapper : α → Nat → β) (K : Nat) (sched : List Nat) (hK : 1 ≤ K) :
    (pMapOutput items mapper K sched).length = items.length ∧
    (∀ (i : Nat) (a : α), items[i]? = some a →
      (pMapOutput items mapper K sched)[i]? = some (some (mapper a i))) := by
  constructor
  · simp [pMapOutput]
  · intro i a ha
    have hi : i < items.length := by
      by_contra hge
      push_neg at hge
      rw [List.getElem?_eq_none hge] at ha
      cases ha
    have hgd : items.getD i default = a := by
      rw [List.getD_eq_getElem?_getD, ha]
      rfl
    obtain ⟨hv, hperm, -⟩ := pMapRun_results
      (fun j => mapper (items.getD j default) j) items.length K sched
    have hmem : i ∈ (pMapRun (fun j => mapper (items.getD j default) j)
        items.length K sched).results.map Prod.fst :=
      hperm.mem_iff.mpr (List.mem_range.mpr hi)
    unfold pMapOutput
    rw [List.getElem?_map, List.getElem?_range hi, Option.map_some']
    rw [@lookup_result β _ (fun j => mapper (items.getD j default) j) i hv hmem, hgd]

/-- Witness for C7 at a concrete input, cap and schedule. -/
theorem pMap_preserves_order_witness :
    (pMapOutput [10, 20, 30] (fun a i => a + i) 2 [1, 0, 2]).length = 3 ∧
    (pMapOutput [10, 20, 30] (fun a i => a + i) 2 [1, 0, 2])[1]? =
      some (some 21) :=
  ⟨(pMap_preserves_order [10, 20, 30] (fun a i => a + i) 2 [1, 0, 2]
      (by decide)).1,
   (pMap_preserves_order [10, 20, 30] (fun a i => a + i) 2 [1, 0, 2]
      (by decide)).2 1 20 (by decide)⟩

theorem runStarts_cons_eq (vals : Nat → β) (K i : Nat) (rest sched : List Nat)
    (st : PMapState β) :
    runStarts vals K (i :: rest) sched st =
      if K ≤ st.inflight.length + 1 then
        runStarts vals K rest sched.tail
          (completeOne vals
            { st with inflight := st.inflight ++ [i],
                      hwm := max st.hwm (st.inflight.length + 1) }
            (sched.headD 0))
      else
        runStarts vals K rest sched
          { st with inflight := st.inflight ++ [i],
                    hwm := max st.hwm (st.inflight.length + 1) } := by
  by_cases hcap : K ≤ st.inflight.length + 1
  · rw [if_pos hcap]
    simp [runStarts, hcap]
  · rw [if_neg hcap]
    simp [runStarts, hcap]

theorem runStarts_bound {vals : Nat → β} {K : Nat} (hK : 1 ≤ K) :
    ∀ (toStart sched : List Nat) (st : PMapState β),
    st.inflight.length < K → st.hwm ≤ K →
    (runStarts vals K toStart sched st).1.inflight.length < K ∧
    (runStarts vals K toStart sched st).1.hwm ≤ K := by
  intro toStart
  induction toStart with
  | nil =>
    intro sched st h1 h2
    simpa [runStarts] using ⟨h1, h2⟩
  | cons i rest ih =>
    intro sched st h1 h2
    rw [runStarts_cons_eq]
    by_cases hcap : K ≤ st.inflight.length + 1
    · rw [if_pos hcap]
      apply ih
      · rw [completeOne_length (by simp)]
        simp only [List.length_append, List.length_cons, List.length_nil]
        omega
      · rw [completeOne_hwm]
        exact max_le h2 (by omega)
    · rw [if_neg hcap]
      apply ih
      · simp only [List.length_append, List.length_cons, List.length_nil]
        omega
      · exact max_le h2 (by omega)

theorem runDrain_hwm (vals : Nat → β) :
    ∀ (fuel : Nat) (sched : List Nat) (st : PMapState β),
    (runDrain vals fuel sched st).hwm = st.hwm := by
  intro fuel
  induction fuel with
  | zero =>
    intro sched st
    rfl
  | succ n ih =>
    intro sched st
    show (runDrain vals n sched.tail (completeOne vals st (sched.headD 0))).hwm = _
    rw [ih, completeOne_hwm]

/-- C8: for every task count, schedule and positive cap K, the high-water
mark of the executing list - updated at every task start, the only point
where the in-flight count grows - never exceeds K, so at every instant at
most K mapper invocations are in flight. -/
theorem pMap_bounded_concurrency (vals : Nat → β) (n K : Nat)
    (sched : List Nat) (hK : 1 ≤ K) :
    (pMapRun vals n K sched).hwm ≤ K := by
  have h := @runStarts_bound β vals K hK (List.range n) sched
    (⟨[], [], 0⟩ : PMapState β) (by simpa using hK) (by simp)
  show (runDrain vals
      (runStarts vals K (List.range n) sched ⟨[], [], 0⟩).1.inflight.length
      (runStarts vals K (List.range n) sched ⟨[], [], 0⟩).2
      (runStarts vals K (List.range n) sched ⟨[], [], 0⟩).1).hwm ≤ K
  rw [runDrain_hwm]
  exact h.2

/-- Witness for C8 at a concrete task count, cap and schedule. -/
theorem pMap_bounded_concurrency_witness :
    (pMapRun (fun i => i * i) 5 2 [0, 1, 0, 1, 0]).hwm ≤ 2 :=
  pMap_bounded_concurrency (fun i => i * i) 5 2 [0, 1, 0, 1, 0] (by decide)

/-! ## Claim C2: deep validation of a release -/

/-- C2: deep validation applies its checks in order with the first failing
check winning: no zip asset yields NO_ZIP_ASSET; an empty PropertyMap from
the probe on the first zip asset yields MISSING_MODULE_PROP; an id
differing from the repository identifier yields MODULE_ID_MISMATCH with
both values as details; a missing or empty version or versionCode yields
MISSING_VERSION with both values as details; otherwise an AcceptedRelease
carries the release's tag, name, URL, rewritten HTML description,
timestamps, isPrerelease, verbatim asset list and the version strings
from the PropertyMap. -/
theorem deep_validation_spec (ctx : Ctx) (repoName : Str) (r : GraphQlRelease) :
    (findZipAsset r = none →
      processRelease ctx repoName r =
        .inl { tagName := r.tagName, reason := .NO_ZIP_ASSET, details := none }) ∧
    (∀ z, findZipAsset r = some z →
      extractModulePropsFromZip (ctx.fetch z.downloadUrl) = [] →
      processRelease ctx repoName r =
        .inl { tagName := r.tagName, reason := .MISSING_MODULE_PROP,
               details := none }) ∧
    (∀ z, findZipAsset r = some z →
      extractModulePropsFromZip (ctx.fetch z.downloadUrl) ≠ [] →
      getProp (extractModulePropsFromZip (ctx.fetch z.downloadUrl)) "id".data ≠
        some repoName →
      processRelease ctx repoName r =
        .inl { tagName := r.tagName, reason := .MODULE_ID_MISMATCH,
               details := some [("repoName".data, some repoName),
                 ("moduleId".data, getProp
                   (extractModulePropsFromZip (ctx.fetch z.downloadUrl))
                   "id".data)] }) ∧
    (∀ z, findZipAsset r = some z →
      extractModulePropsFromZip (ctx.fetch z.downloadUrl) ≠ [] →
      getProp (extractModulePropsFromZip (ctx.fetch z.downloadUrl)) "id".data =
        some repoName →
      (strFalsy (getProp (extractModulePropsFromZip (ctx.fetch z.downloadUrl))
          "version".data) ||
        strFalsy (getProp (extractModulePropsFromZip (ctx.fetch z.downloadUrl))
          "versionCode".data)) = true →
      processRelease ctx repoName r =
        .inl { tagName := r.tagName, reason := .MISSING_VERSION,
               details := some [("version".data,
                 getProp (extractModulePropsFromZip (ctx.fetch z.downloadUrl))
                   "version".data),
                 ("versionCode".data,
                 getProp (extractModulePropsFromZip (ctx.fetch z.downloadUrl))
                   "versionCode".data)] }) ∧
    (∀ z, findZipAsset r = some z →
      extractModulePropsFromZip (ctx.fetch z.downloadUrl) ≠ [] →
      getProp (extractModulePropsFromZip (ctx.fetch z.downloadUrl)) "id".data =
        some repoName →
      (strFalsy (getProp (extractModulePropsFromZip (ctx.fetch z.downloadUrl))
          "version".data) ||
        strFalsy (getProp (extractModulePropsFromZip (ctx.fetch z.downloadUrl))
          "versionCode".data)) = false →
      processRelease ctx repoName r =
        .inr { name := r.name, url := r.url,
               descriptionHTML := replacePrivateImage r.description r.descriptionHTML,
               createdAt := r.createdAt, publishedAt := r.publishedAt,
               updatedAt := r.updatedAt, tagName := r.tagName,
               isPrerelease := r.isPrerelease,
               releaseAssets := r.releaseAssets.getD [],
               version := (getProp (extractModulePropsFromZip
                 (ctx.fetch z.downloadUrl)) "version".data).getD [],
               versionCode := (getProp (extractModulePropsFromZip
                 (ctx.fetch z.downloadUrl)) "versionCode".data).getD [] }) := by
  refine ⟨?_, ?_, ?_, ?_, ?_⟩
  · intro hz
    simp [processRelease, hz]
  · intro z hz hempty
    simp [processRelease, hz, hempty]
  · intro z hz hne hid
    have hemp : (extractModulePropsFromZip (ctx.fetch z.downloadUrl)).isEmpty = false := by
      simpa [List.isEmpty_iff] using hne
    have hid' : (getProp (extractModulePropsFromZip (ctx.fetch z.downloadUrl))
        "id".data != some repoName) = true := by
      simpa using hid
    simp [processRelease, hz, hemp, hid']
  · intro z hz hne hid hver
    have hemp : (extractModulePropsFromZip (ctx.fetch z.downloadUrl)).isEmpty = false := by
      simpa [List.isEmpty_iff] using hne
    have hid' : (getProp (extractModulePropsFromZip (ctx.fetch z.downloadUrl))
        "id".data != some repoName) = false := by
      simpa using hid
    simp [processRelease, hz, hemp, hid', hver]
  · intro z hz hne hid hver
    have hemp : (extractModulePropsFromZip (ctx.fetch z.downloadUrl)).isEmpty = false := by
      simpa [List.isEmpty_iff] using hne
    have hid' : (getProp (extractModulePropsFromZip (ctx.fetch z.downloadUrl))
        "id".data != some repoName) = false := by
      simpa using hid
    simp [processRelease, hz, hemp, hid', hver]

/-- A concrete zip asset for witnesses. -/
def assetW : ReleaseAsset :=
  { name := "m.zip".data, contentType := "application/zip".data,
    downloadUrl := "u1".data, downloadCount := 0, size := 0 }

/-- A concrete immutable non-draft release with one zip asset. -/
def releaseW : GraphQlRelease :=
  { name := "v1".data, url := "r".data, immutable := true, isDraft := false,
    description := [], descriptionHTML := [], createdAt := [],
    publishedAt := "2024-01-01T00:00:00Z".data, updatedAt := [],
    tagName := "1-v1".data, isPrerelease := false, isLatest := false,
    releaseAssets := some [assetW] }

/-- A concrete repository whose declared latest release is releaseW. -/
def repoW : GraphQlRepository :=
  { name := "foo.bar".data, description := some "Foo".data, url := [],
    homepageUrl := none, collaborators := [], readme := none,
    moduleJson := none, latestRelease := some releaseW,
    releases := [releaseW], updatedAt := [], createdAt := [],
    stargazerCount := 0 }

/-- A probe oracle whose module.prop carries a mismatching id. -/
def ctxMismatch : Ctx :=
  { fetch := fun _ => some "id=other.mod\nversion=1\nversionCode=1".data,
    render := id, ellipsize512 := id, parseModuleJson := fun _ => none }

/-- Witness for C2: the mismatching id produces MODULE_ID_MISMATCH with
both values as details, via deep_validation_spec. -/
theorem deep_validation_spec_witness :
    processRelease ctxMismatch "foo.bar".data releaseW =
      .inl { tagName := "1-v1".data, reason := .MODULE_ID_MISMATCH,
             details := some [("repoName".data, some "foo.bar".data),
               ("moduleId".data, some "other.mod".data)] } := by
  have h := (deep_validation_spec ctxMismatch "foo.bar".data releaseW).2.2.1
    assetW (by decide) (by decide) (by decide)
  rw [h]
  decide

/-! ## Claim C1: the module-level SkipInfo decision -/

theorem skips_nonempty {ctx : Ctx} {repo : GraphQlRepository}
    (h4 : acceptedReleases ctx repo = []) (hf : filteredReleases repo ≠ []) :
    releaseSkipReasons ctx repo ≠ [] := by
  cases hfr : filteredReleases repo with
  | nil => exact absurd hfr hf
  | cons f fs =>
    have hr : releaseResults ctx repo =
        processRelease ctx repo.name f :: fs.map (processRelease ctx repo.name) := by
      simp [releaseResults, hfr]
    cases hpf : processRelease ctx repo.name f with
    | inl sk =>
      simp [releaseSkipReasons, hr, hpf]
    | inr mr =>
      have : acceptedReleases ctx repo ≠ [] := by
        simp [acceptedReleases, hr, hpf]
      exact absurd h4 this

theorem latestSkipOf_mem {repo : GraphQlRepository} {skips : List ReleaseSkip}
    {ls : ReleaseSkip} (h : latestSkipOf repo skips = some ls) : ls ∈ skips := by
  unfold latestSkipOf at h
  cases hlr : repo.latestRelease with
  | none => rw [hlr] at h; cases h
  | some lr =>
    rw [hlr] at h
    simp only [Option.map_some'] at h
    by_cases he : lr.tagName.isEmpty
    · rw [if_pos he] at h; cases h
    · rw [if_neg he] at h
      exact List.mem_of_find?_eq_some h

theorem latestSkipOf_tag {repo : GraphQlRepository} {skips : List ReleaseSkip}
    {ls : ReleaseSkip} (h : latestSkipOf repo skips = some ls) :
    ∀ lr, repo.latestRelease = some lr → ls.tagName = lr.tagName := by
  intro lr hlr
  unfold latestSkipOf at h
  rw [hlr] at h
  simp only [Option.map_some'] at h
  by_cases he : lr.tagName.isEmpty
  · rw [if_pos he] at h; cases h
  · rw [if_neg he] at h
    have := List.find?_some h
    simpa using this

/-- C1: when the module-level checks pass and release processing yields no
AcceptedRelease, convert2json fails with the SkipInfo determined as
follows: the pre-filter having eliminated every release gives
NO_VALID_RELEASES with shouldNotify; a skip record whose tag equals the
declared latest-release tag gives that record's reason and details with
shouldNotify and its tag (which equals the declared latest tag);
otherwise NO_VALID_RELEASES without shouldNotify. -/
theorem module_skip_decision (ctx : Ctx) (repo : GraphQlRepository)
    (h1 : RESERVED_NAMES.contains repo.name = false)
    (h2 : validModuleName repo.name = true)
    (h3 : strFalsy repo.description = false)
    (h4 : acceptedReleases ctx repo = []) :
    convert2json ctx repo = .failure (noValidReleasesSkipInfo repo
      (filteredReleases repo) (releaseSkipReasons ctx repo)) ∧
    (filteredReleases repo = [] →
      noValidReleasesSkipInfo repo (filteredReleases repo)
          (releaseSkipReasons ctx repo) =
        { reason := .NO_VALID_RELEASES, message := msgNoValidPre repo.name,
          details := none, shouldNotify := true, tagName := none }) ∧
    (∀ ls, filteredReleases repo ≠ [] →
      latestSkipOf repo (releaseSkipReasons ctx repo) = some ls →
      noValidReleasesSkipInfo repo (filteredReleases repo)
          (releaseSkipReasons ctx repo) =
        { reason := ls.reason, message := msgLatestSkip repo.name ls,
          details := ls.details, shouldNotify := true,
          tagName := some ls.tagName } ∧
      (∀ lr, repo.latestRelease = some lr → ls.tagName = lr.tagName)) ∧
    (filteredReleases repo ≠ [] →
      latestSkipOf repo (releaseSkipReasons ctx repo) = none →
      noValidReleasesSkipInfo repo (filteredReleases repo)
          (releaseSkipReasons ctx repo) =
        { reason := .NO_VALID_RELEASES, message := msgOlderIssues repo.name,
          details := none, shouldNotify := false, tagName := none }) := by
  have h1' : repo.name ∉ RESERVED_NAMES := by simpa using h1
  refine ⟨?_, ?_, ?_, ?_⟩
  · simp [convert2json, h1', h2, h3, h4]
  · intro hf
    simp [noValidReleasesSkipInfo, hf]
  · intro ls hf hls
    have hsk : releaseSkipReasons ctx repo ≠ [] := skips_nonempty h4 hf
    have hfil : (filteredReleases repo).isEmpty = false := by
      simpa [List.isEmpty_iff] using hf
    have hske : (releaseSkipReasons ctx repo).isEmpty = false := by
      simpa [List.isEmpty_iff] using hsk
    refine ⟨?_, latestSkipOf_tag hls⟩
    simp [noValidReleasesSkipInfo, hfil, hske, hls]
  · intro hf hls
    have hfil : (filteredReleases repo).isEmpty = false := by
      simpa [List.isEmpty_iff] using hf
    by_cases hsk : (releaseSkipReasons ctx repo).isEmpty
    · exact absurd (List.isEmpty_iff.mp hsk) (skips_nonempty h4 hf)
    · have hske : (releaseSkipReasons ctx repo).isEmpty = false := by
        simpa using hsk
      simp [noValidReleasesSkipInfo, hfil, hske, hls]

/-- Witness for C1: the concrete repository whose only (and declared
latest) release has a mismatching module id fails with the decision
SkipInfo, via module_skip_decision. -/
theorem module_skip_decision_witness :
    convert2json ctxMismatch repoW = .failure (noValidReleasesSkipInfo repoW
      (filteredReleases repoW) (releaseSkipReasons ctxMismatch repoW)) ∧
    noValidReleasesSkipInfo repoW (filteredReleases repoW)
        (releaseSkipReasons ctxMismatch repoW) =
      { reason := .MODULE_ID_MISMATCH,
        message := msgLatestSkip "foo.bar".data
          { tagName := "1-v1".data, reason := .MODULE_ID_MISMATCH,
            details := some [("repoName".data, some "foo.bar".data),
              ("moduleId".data, some "other.mod".data)] },
        details := some [("repoName".data, some "foo.bar".data),
          ("moduleId".data, some "other.mod".data)],
        shouldNotify := true, tagName := some "1-v1".data } := by
  constructor
  · exact (module_skip_decision ctxMismatch repoW (by decide) (by decide)
      (by decide) (by decide)).1
  · have h := ((module_skip_decision ctxMismatch repoW (by decide) (by decide)
      (by decide) (by decide)).2.2.1
        { tagName := "1-v1".data, reason := .MODULE_ID_MISMATCH,
          details := some [("repoName".data, some "foo.bar".data),
            ("moduleId".data, some "other.mod".data)] }
        (by decide) (by decide)).1
    rw [h]
    decide

/-! ## Claim C10: the NO_ZIP_ASSET branch is unreachable -/

theorem findZip_of_preFilter {r : GraphQlRelease}
    (h : releasePreFilter r = true) : findZipAsset r ≠ none := by
  have hz : hasZipAsset r = true := by
    simp only [releasePreFilter, Bool.and_eq_true] at h
    exact h.2
  unfold hasZipAsset at hz
  cases ha : r.releaseAssets with
  | none => rw [ha] at hz; cases hz
  | some assets =>
    rw [ha] at hz
    unfold findZipAsset
    rw [ha]
    intro hnone
    simp only [Option.getD_some] at hnone
    rw [List.find?_eq_none] at hnone
    rw [List.any_eq_true] at hz
    obtain ⟨x, hx, hpx⟩ := hz
    exact hnone x hx hpx

theorem processRelease_inl_reason {ctx : Ctx} {repoName : Str}
    {r : GraphQlRelease} {rs : ReleaseSkip} (hz : findZipAsset r ≠ none)
    (h : processRelease ctx repoName r = .inl rs) :
    rs.reason ≠ .NO_ZIP_ASSET := by
  cases hfz : findZipAsset r with
  | none => exact absurd hfz hz
  | some z =>
    simp only [processRelease, hfz] at h
    split_ifs at h with hc1 hc2 hc3
    · injection h with h'
      rw [← h']
      simp
    · injection h with h'
      rw [← h']
      simp
    · injection h with h'
      rw [← h']
      simp

theorem releaseSkipReasons_no_zip (ctx : Ctx) (repo : GraphQlRepository) :
    ∀ rs ∈ releaseSkipReasons ctx repo, rs.reason ≠ .NO_ZIP_ASSET := by
  intro rs hrs
  unfold releaseSkipReasons at hrs
  rw [List.mem_filterMap] at hrs
  obtain ⟨res, hres, hleft⟩ := hrs
  unfold releaseResults at hres
  rw [List.mem_map] at hres
  obtain ⟨r, hrmem, hproc⟩ := hres
  have hpre : releasePreFilter r = true := List.of_mem_filter hrmem
  have hres : res = .inl rs := by
    cases res with
    | inl a => simp only [Sum.getLeft?] at hleft; rw [Option.some.injEq] at hleft; rw [hleft]
    | inr b => simp [Sum.getLeft?] at hleft
  rw [hres] at hproc
  exact processRelease_inl_reason (findZip_of_preFilter hpre) hproc

theorem noValid_reason_no_zip {repo : GraphQlRepository}
    {filtered : List GraphQlRelease} {skips : List ReleaseSkip}
    (h : ∀ rs ∈ skips, rs.reason ≠ .NO_ZIP_ASSET) :
    (noValidReleasesSkipInfo repo filtered skips).reason ≠ .NO_ZIP_ASSET := by
  unfold noValidReleasesSkipInfo
  split_ifs with hfil hsk
  · simp
  · cases hls : latestSkipOf repo skips with
    | some ls =>
      simp only [hls]
      exact h ls (latestSkipOf_mem hls)
    | none => simp [hls]
  · simp

/-- C10: inside convert2json's per-release mapper the NO_ZIP_ASSET branch
is unreachable: every release handed to the mapper has passed the
pre-filter, which requires a zip asset, so the search for the first zip
asset succeeds; hence no release skip record and no resulting module
SkipInfo ever carries NO_ZIP_ASSET. -/
theorem no_zip_asset_unreachable (ctx : Ctx) (repo : GraphQlRepository) :
    (∀ rs ∈ releaseSkipReasons ctx repo, rs.reason ≠ .NO_ZIP_ASSET) ∧
    (∀ si, convert2json ctx repo = .failure si →
      si.reason ≠ .NO_ZIP_ASSET) := by
  refine ⟨releaseSkipReasons_no_zip ctx repo, ?_⟩
  intro si hsi
  by_cases hr : repo.name ∈ RESERVED_NAMES
  · have hrc : RESERVED_NAMES.contains repo.name = true := by simpa using hr
    rw [convert2json, if_pos hrc] at hsi
    injection hsi with h'
    rw [← h']
    simp
  · rw [convert2json] at hsi
    rw [if_neg (by simpa using hr)] at hsi
    by_cases hv : validModuleName repo.name
    · rw [if_neg (by simp [hv])] at hsi
      by_cases hd : strFalsy repo.description
      · rw [if_pos (by simpa using hd)] at hsi
        injection hsi with h'
        rw [← h']
        simp
      · rw [if_neg (by simp [hd])] at hsi
        by_cases hemp : (acceptedReleases ctx repo).isEmpty
        · simp only [hemp, if_pos] at hsi
          injection hsi with h'
          rw [← h']
          exact noValid_reason_no_zip (releaseSkipReasons_no_zip ctx repo)
        · simp only [hemp, Bool.false_eq_true, if_neg] at hsi
          cases hsi
    · rw [if_pos (by simp [hv])] at hsi
      injection hsi with h'
      rw [← h']
      simp

/-- Witness for C10: on the concrete mismatching repository the produced
SkipInfo reason is not NO_ZIP_ASSET, via no_zip_asset_unreachable. -/
theorem no_zip_asset_unreachable_witness :
    SkipInfo.reason (noValidReleasesSkipInfo repoW (filteredReleases repoW)
      (releaseSkipReasons ctxMismatch repoW)) ≠ SkipReason.NO_ZIP_ASSET :=
  (no_zip_asset_unreachable ctxMismatch repoW).2 _ (by decide)

/-! ## Claim C9: idempotence of replacePrivateImage

The proof characterises the strings matched by the per-uuid private-image
regex (IsCore / HasM below), shows that replacing every match with a
public-image URL leaves a string in which the same regex finds no match
for the replaced uuid and no new match for any uuid of the public-image
shape, and folds these facts over the insertion-ordered match map. -/

/-- Characters the lazy region of the private-image regex ranges over:
dot-matchable and not the terminating quote of the lookahead. -/
def Transparent (l : Str) : Prop := ∀ c ∈ l, dotChar c = true ∧ c ≠ '"'

/-- All characters are decimal digits. -/
def AllDigits (l : Str) : Prop := ∀ c ∈ l, isDigitC c = true

/-- The character content of a uuid captured by REGEX_PUBLIC_IMAGES:
hexadecimal digits and dashes. -/
def IdOk (id : Str) : Prop := ∀ c ∈ id, isHexC c = true ∨ c = '-'

/-- The strings consumed by the private-image regex for uuid id, up to
but excluding the quote of the lookahead. -/
def IsCore (id C : Str) : Prop :=
  ∃ d1 d2 lazy, d1 ≠ [] ∧ AllDigits d1 ∧ d2 ≠ [] ∧ AllDigits d2 ∧ Transparent lazy ∧
    C = privLit ++ d1 ++ '/' :: d2 ++ '-' :: id ++ '.' :: lazy

/-- The private-image regex for uuid id matches somewhere in s. -/
def HasM (id s : Str) : Prop :=
  ∃ a C r, IsCore id C ∧ s = a ++ C ++ '"' :: r

/-- The shape of every full match of REGEX_PUBLIC_IMAGES. -/
def UrlShape (url : Str) : Prop :=
  ∃ ow rp nm uu,
    (∀ c ∈ ow, ownerChar c = true) ∧ (∀ c ∈ rp, repoChar c = true) ∧
    AllDigits nm ∧ (∀ c ∈ uu, isHexC c = true ∨ c = '-') ∧
    url = pubLit ++ ow ++ '/' :: rp ++ "/assets/".data ++ nm ++ '/' :: uu

/-- No double-quote character occurs in l. -/
def noQuote (l : Str) : Prop := ∀ c ∈ l, c ≠ '"'

theorem ne_of_class {p : Char → Bool} {c c0 : Char} (h : p c = true)
    (h0 : p c0 = false) : c ≠ c0 := by
  rintro rfl
  rw [h] at h0
  cases h0

theorem transparent_of_not_lineterm {c : Char} (h1 : c ≠ '\n') (h2 : c ≠ '\r')
    (h3 : c ≠ Char.ofNat 0x2028) (h4 : c ≠ Char.ofNat 0x2029) (h5 : c ≠ '"') :
    dotChar c = true ∧ c ≠ '"' := by
  refine ⟨?_, h5⟩
  simp [dotChar, h1, h2, h3, h4]

theorem digit_transparent {c : Char} (h : isDigitC c = true) :
    dotChar c = true ∧ c ≠ '"' := by
  refine transparent_of_not_lineterm ?_ ?_ ?_ ?_ ?_ <;> rintro rfl <;>
    exact absurd h (by decide)

theorem hex_transparent {c : Char} (h : isHexC c = true) :
    dotChar c = true ∧ c ≠ '"' := by
  refine transparent_of_not_lineterm ?_ ?_ ?_ ?_ ?_ <;> rintro rfl <;>
    exact absurd h (by decide)

theorem privLit_transparent : ∀ c ∈ privLit, dotChar c = true ∧ c ≠ '"' := by decide

theorem isCore_transparent {id C : Str} (hid : IdOk id) (h : IsCore id C) :
    Transparent C := by
  obtain ⟨d1, d2, lazy, -, hd1, -, hd2, hlz, rfl⟩ := h
  intro c hc
  rcases List.mem_append.mp hc with h | h
  · rcases List.mem_append.mp h with h | h
    · rcases List.mem_append.mp h with h | h
      · rcases List.mem_append.mp h with h | h
        · exact privLit_transparent c h
        · exact digit_transparent (hd1 c h)
      · rcases List.mem_cons.mp h with rfl | h
        · exact (by decide)
        · exact digit_transparent (hd2 c h)
    · rcases List.mem_cons.mp h with rfl | h
      · exact (by decide)
      · rcases hid c h with hh | rfl
        · exact hex_transparent hh
        · exact (by decide)
  · rcases List.mem_cons.mp h with rfl | h
    · exact (by decide)
    · exact hlz c h

theorem isCore_noQuote {id C : Str} (hid : IdOk id) (h : IsCore id C) :
    noQuote C :=
  fun c hc => (isCore_transparent hid h c hc).2

theorem isCore_length_pos {id C : Str} (h : IsCore id C) : 0 < C.length := by
  obtain ⟨d1, d2, lazy, -, -, -, -, -, rfl⟩ := h
  have hl : privLit.length = 50 := by decide
  simp only [List.length_append, List.length_cons, hl]
  omega

theorem splitFirstAt {ch : Char} : ∀ {x1 : Str} {x2 y1 y2 : Str},
    x1 ++ ch :: y1 = x2 ++ ch :: y2 → (∀ c ∈ x1, c ≠ ch) → (∀ c ∈ x2, c ≠ ch) →
    x1 = x2 ∧ y1 = y2 := by
  intro x1
  induction x1 with
  | nil =>
    intro x2 y1 y2 h h1 h2
    cases x2 with
    | nil => simpa using h
    | cons b bs =>
      simp only [List.nil_append, List.cons_append, List.cons.injEq] at h
      exact absurd h.1.symm (h2 b (by simp))
  | cons a as ih =>
    intro x2 y1 y2 h h1 h2
    cases x2 with
    | nil =>
      simp only [List.cons_append, List.nil_append, List.cons.injEq] at h
      exact absurd h.1 (h1 a (by simp))
    | cons b bs =>
      simp only [List.cons_append, List.cons.injEq] at h
      obtain ⟨rfl, h⟩ := h
      obtain ⟨he, hy⟩ := ih h (fun c hc => h1 c (by simp [hc]))
        (fun c hc => h2 c (by simp [hc]))
      exact ⟨by rw [he], hy⟩

theorem quote_split : ∀ s : Str, noQuote s ∨ ∃ x y, noQuote x ∧ s = x ++ '"' :: y := by
  intro s
  induction s with
  | nil => exact Or.inl (fun c hc => absurd hc (List.not_mem_nil c))
  | cons c t ih =>
    by_cases hq : c = '"'
    · exact Or.inr ⟨[], t, fun a ha => absurd ha (List.not_mem_nil a), by rw [hq]; rfl⟩
    · rcases ih with hnq | ⟨x, y, hx, rfl⟩
      · refine Or.inl (fun a ha => ?_)
        rcases List.mem_cons.mp ha with rfl | ha2
        · exact hq
        · exact hnq a ha2
      · refine Or.inr ⟨c :: x, y, fun a ha => ?_, rfl⟩
        rcases List.mem_cons.mp ha with rfl | ha2
        · exact hq
        · exact hx a ha2

theorem dropDigits1_spec {s r : Str} (h : dropDigits1 s = some r) :
    ∃ d, d ≠ [] ∧ AllDigits d ∧ s = d ++ r := by
  cases s with
  | nil => simp [dropDigits1] at h
  | cons c t =>
    by_cases hc : isDigitC c
    · simp only [dropDigits1, hc, if_pos, Option.some.injEq] at h
      subst h
      refine ⟨c :: t.takeWhile isDigitC, by simp, ?_, ?_⟩
      · intro x hx
        rcases List.mem_cons.mp hx with rfl | hx2
        · exact hc
        · exact List.mem_takeWhile_imp hx2
      · simp [List.takeWhile_append_dropWhile]
    · simp [dropDigits1, hc] at h

theorem scanToQuote_spec : ∀ {s r : Str}, scanToQuote s = some r →
    ∃ lazy r2, Transparent lazy ∧ s = lazy ++ '"' :: r2 ∧ r = '"' :: r2 := by
  intro s
  induction s with
  | nil => intro r h; simp [scanToQuote] at h
  | cons c t ih =>
    intro r h
    by_cases hq : c = '"'
    · subst hq
      simp only [scanToQuote, if_pos, Option.some.injEq] at h
      exact ⟨[], t, fun a ha => absurd ha (List.not_mem_nil a), rfl, h.symm⟩
    · by_cases hd : dotChar c
      · simp only [scanToQuote, hq, if_neg, hd, if_pos] at h
        obtain ⟨lazy, r2, htr, heq, hr⟩ := ih h
        refine ⟨c :: lazy, r2, fun a ha => ?_, by rw [heq]; rfl, hr⟩
        rcases List.mem_cons.mp ha with rfl | ha2
        · exact ⟨hd, hq⟩
        · exact htr a ha2
      · simp [scanToQuote, hq, hd] at h

theorem dropDigits1_exact {d : Str} {c : Char} {x : Str} (hd : AllDigits d)
    (hne : d ≠ []) (hc : isDigitC c = false) :
    dropDigits1 (d ++ c :: x) = some (c :: x) := by
  cases d with
  | nil => exact absurd rfl hne
  | cons e d2 =>
    have he : isDigitC e = true := hd e (by simp)
    have hall : ∀ a ∈ d2, isDigitC a = true := fun a ha => hd a (by simp [ha])
    simp only [List.cons_append, dropDigits1, he, if_pos, Option.some.injEq]
    exact dropWhile_append_sat hall hc

theorem scanToQuote_trans {lazy : Str} (h : Transparent lazy) (r : Str) :
    scanToQuote (lazy ++ '"' :: r) = some ('"' :: r) := by
  induction lazy with
  | nil => simp [scanToQuote]
  | cons c lz ih =>
    obtain ⟨hd, hq⟩ := h c (by simp)
    have h2 : Transparent lz := fun a ha => h a (by simp [ha])
    simp only [List.cons_append, scanToQuote, hq, if_neg, hd, if_pos]
    exact ih h2

theorem privCore_computes (id r : Str) {d1 d2 lazy : Str}
    (hd1ne : d1 ≠ []) (hd1 : AllDigits d1) (hd2ne : d2 ≠ []) (hd2 : AllDigits d2)
    (htr : Transparent lazy) :
    privMatchHead id
      (privLit ++ (d1 ++ ('/' :: (d2 ++ ('-' :: (id ++ ('.' :: (lazy ++ '"' :: r)))))))) =
      some ('"' :: r) := by
  rw [privMatchHead, privCore]
  rw [show dropLit privLit
      (privLit ++ (d1 ++ ('/' :: (d2 ++ ('-' :: (id ++ ('.' :: (lazy ++ '"' :: r)))))))) =
      some (d1 ++ ('/' :: (d2 ++ ('-' :: (id ++ ('.' :: (lazy ++ '"' :: r))))))) from
    dropLit_eq_some.mpr rfl, Option.some_bind]
  have h2 : dropDigits1 (d1 ++ ('/' :: (d2 ++ ('-' :: (id ++ ('.' :: (lazy ++ '"' :: r))))))) =
      some ('/' :: (d2 ++ ('-' :: (id ++ ('.' :: (lazy ++ '"' :: r)))))) :=
    dropDigits1_exact hd1 hd1ne (by decide)
  rw [h2, Option.some_bind]
  rw [show dropLit ['/'] ('/' :: (d2 ++ ('-' :: (id ++ ('.' :: (lazy ++ '"' :: r)))))) =
      some (d2 ++ ('-' :: (id ++ ('.' :: (lazy ++ '"' :: r))))) from
    dropLit_eq_some.mpr rfl, Option.some_bind]
  have h3 : dropDigits1 (d2 ++ ('-' :: (id ++ ('.' :: (lazy ++ '"' :: r))))) =
      some ('-' :: (id ++ ('.' :: (lazy ++ '"' :: r)))) :=
    dropDigits1_exact hd2 hd2ne (by decide)
  rw [h3, Option.some_bind]
  rw [show dropLit ['-'] ('-' :: (id ++ ('.' :: (lazy ++ '"' :: r)))) =
      some (id ++ ('.' :: (lazy ++ '"' :: r))) from
    dropLit_eq_some.mpr rfl, Option.some_bind]
  rw [show dropLit id (id ++ ('.' :: (lazy ++ '"' :: r))) =
      some ('.' :: (lazy ++ '"' :: r)) from
    dropLit_eq_some.mpr rfl, Option.some_bind]
  rw [show dropLit ['.'] ('.' :: (lazy ++ '"' :: r)) =
      some (lazy ++ '"' :: r) from
    dropLit_eq_some.mpr rfl, Option.some_bind]
  exact scanToQuote_trans htr r

theorem privMatchHead_some_iff {id s rest : Str} :
    privMatchHead id s = some rest ↔
      ∃ C r, IsCore id C ∧ s = C ++ '"' :: r ∧ rest = '"' :: r := by
  constructor
  · intro h
    rw [privMatchHead] at h
    obtain ⟨s7, hc, hscan⟩ := Option.bind_eq_some.mp h
    rw [privCore] at hc
    obtain ⟨s1, h1, hc⟩ := Option.bind_eq_some.mp hc
    obtain ⟨s2, h2, hc⟩ := Option.bind_eq_some.mp hc
    obtain ⟨s3, h3, hc⟩ := Option.bind_eq_some.mp hc
    obtain ⟨s4, h4, hc⟩ := Option.bind_eq_some.mp hc
    obtain ⟨s5, h5, hc⟩ := Option.bind_eq_some.mp hc
    obtain ⟨s6, h6, h7⟩ := Option.bind_eq_some.mp hc
    have e1 := dropLit_eq_some.mp h1
    obtain ⟨d1, hd1ne, hd1dig, e2⟩ := dropDigits1_spec h2
    have e3 := dropLit_eq_some.mp h3
    obtain ⟨d2, hd2ne, hd2dig, e4⟩ := dropDigits1_spec h4
    have e5 := dropLit_eq_some.mp h5
    have e6 := dropLit_eq_some.mp h6
    have e7 := dropLit_eq_some.mp h7
    obtain ⟨lazy, r, htr, e8, hrest⟩ := scanToQuote_spec hscan
    subst e1 e2 e3 e4 e5 e6 e7 e8
    refine ⟨privLit ++ d1 ++ '/' :: d2 ++ '-' :: id ++ '.' :: lazy, r,
      ⟨d1, d2, lazy, hd1ne, hd1dig, hd2ne, hd2dig, htr, rfl⟩, ?_, hrest⟩
    simp [List.append_assoc]
  · rintro ⟨C, r, ⟨d1, d2, lazy, hd1ne, hd1dig, hd2ne, hd2dig, htr, rfl⟩, rfl, rfl⟩
    have e : (privLit ++ d1 ++ '/' :: d2 ++ '-' :: id ++ '.' :: lazy) ++ '"' :: r =
        privLit ++ (d1 ++ ('/' :: (d2 ++ ('-' :: (id ++ ('.' :: (lazy ++ '"' :: r))))))) := by
      simp [List.append_assoc]
    rw [e]
    exact privCore_computes id r hd1ne hd1dig hd2ne hd2dig htr

theorem dropLit_privLit_quote (x : Str) : dropLit privLit ('"' :: x) = none := by
  have e : privLit = 'h' :: "ttps://private-user-images.githubusercontent.com/".data := by
    decide
  rw [e]
  simp [dropLit]

theorem privMatchHead_quote (id x : Str) : privMatchHead id ('"' :: x) = none := by
  simp [privMatchHead, privCore, dropLit_privLit_quote]

theorem hasM_quote_mem {id s : Str} (h : HasM id s) : '"' ∈ s := by
  obtain ⟨a, C, r, -, rfl⟩ := h
  simp

theorem noQuote_not_hasM {id s : Str} (hs : noQuote s) : ¬HasM id s :=
  fun h => hs '"' (hasM_quote_mem h) rfl

theorem privMatchHead_noQuote {id s : Str} (hs : noQuote s) :
    privMatchHead id s = none := by
  by_contra hne
  rcases Option.ne_none_iff_exists'.mp hne with ⟨rest, hm⟩
  obtain ⟨C, r, -, heq, -⟩ := privMatchHead_some_iff.mp hm
  exact hs '"' (by rw [heq]; simp) rfl

theorem privReplaceAll_noQuote {id url : Str} : ∀ {s : Str}, noQuote s →
    privReplaceAll id url s = s := by
  intro s
  induction s with
  | nil => intro _; rfl
  | cons c t ih =>
    intro hs
    rw [privReplaceAll_nomatch url (privMatchHead_noQuote hs)]
    rw [ih (fun a ha => hs a (by simp [ha]))]

theorem hasM_prepend {id : Str} (x : Str) {s : Str} (h : HasM id s) :
    HasM id (x ++ s) := by
  obtain ⟨a, C, r, hC, rfl⟩ := h
  exact ⟨x ++ a, C, r, hC, by simp [List.append_assoc]⟩

theorem hasM_cons {id : Str} (c : Char) {s : Str} (h : HasM id s) :
    HasM id (c :: s) :=
  hasM_prepend [c] h

theorem privReplaceAll_not_hasM {id url : Str} : ∀ {s : Str}, ¬HasM id s →
    privReplaceAll id url s = s := by
  intro s
  induction s with
  | nil => intro _; rfl
  | cons c t ih =>
    intro hs
    have hm : privMatchHead id (c :: t) = none := by
      by_contra hne
      rcases Option.ne_none_iff_exists'.mp hne with ⟨rest, hm⟩
      obtain ⟨C, r, hC, heq, -⟩ := privMatchHead_some_iff.mp hm
      exact hs ⟨[], C, r, hC, by simp [heq]⟩
    rw [privReplaceAll_nomatch url hm]
    rw [ih (fun hm2 => hs (hasM_cons c hm2))]

theorem hasM_split {id X Y : Str} (hid : IdOk id) (hX : noQuote X) :
    HasM id (X ++ '"' :: Y) ↔ (∃ a C, IsCore id C ∧ X = a ++ C) ∨ HasM id Y := by
  constructor
  · rintro ⟨a, C, r, hC, heq⟩
    rcases quote_split a with hqa | ⟨a1, a2, ha1, rfl⟩
    · have hnq : ∀ c ∈ a ++ C, c ≠ '"' := by
        intro c hc
        rcases List.mem_append.mp hc with h | h
        · exact hqa c h
        · exact isCore_noQuote hid hC c h
      obtain ⟨h1, -⟩ := splitFirstAt heq hX hnq
      exact Or.inl ⟨a, C, hC, h1⟩
    · have heq2 : X ++ '"' :: Y = a1 ++ '"' :: (a2 ++ C ++ '"' :: r) := by
        rw [heq]
        simp [List.append_assoc]
      obtain ⟨-, h2⟩ := splitFirstAt heq2 hX ha1
      exact Or.inr ⟨a2, C, r, hC, h2⟩
  · rintro (⟨a, C, hC, rfl⟩ | ⟨a, C, r, hC, rfl⟩)
    · exact ⟨a, C, Y, hC, by simp [List.append_assoc]⟩
    · exact ⟨X ++ '"' :: a, C, r, hC, by simp [List.append_assoc]⟩

theorem seg2 (id' url' : Str) (hi' : IdOk id') (Y : Str) :
    ∀ X : Str, noQuote X →
    (privReplaceAll id' url' (X ++ '"' :: Y) = X ++ '"' :: privReplaceAll id' url' Y ∧
      ∀ u v, X = u ++ v → ¬IsCore id' v) ∨
    (∃ X1 X2, X = X1 ++ X2 ∧ IsCore id' X2 ∧
      (∀ u v, X = u ++ v → IsCore id' v → v.length ≤ X2.length) ∧
      privReplaceAll id' url' (X ++ '"' :: Y) =
        X1 ++ url' ++ '"' :: privReplaceAll id' url' Y) := by
  intro X
  induction X with
  | nil =>
    intro _
    left
    refine ⟨?_, ?_⟩
    · have h1 := privReplaceAll_nomatch url' (privMatchHead_quote id' Y)
      simpa using h1
    · intro u v huv hcore
      have hv : v = [] := (List.append_eq_nil.mp huv.symm).2
      rw [hv] at hcore
      simpa using isCore_length_pos hcore
  | cons c X' ih =>
    intro hX
    have hX' : noQuote X' := fun a ha => hX a (by simp [ha])
    by_cases hc : IsCore id' (c :: X')
    · right
      refine ⟨[], c :: X', by simp, hc, ?_, ?_⟩
      · intro u v huv _
        have := congrArg List.length huv
        simp only [List.length_append, List.length_cons] at this ⊢
        omega
      · have hm : privMatchHead id' ((c :: X') ++ '"' :: Y) = some ('"' :: Y) :=
          privMatchHead_some_iff.mpr ⟨c :: X', Y, hc, rfl, rfl⟩
        have hm2 : privMatchHead id' (c :: (X' ++ '"' :: Y)) = some ('"' :: Y) := hm
        rw [show (c :: X') ++ '"' :: Y = c :: (X' ++ '"' :: Y) from rfl]
        rw [privReplaceAll_match url' hm2]
        rw [privReplaceAll_nomatch url' (privMatchHead_quote id' Y)]
        simp
    · have hm : privMatchHead id' (c :: (X' ++ '"' :: Y)) = none := by
        by_contra hne
        rcases Option.ne_none_iff_exists'.mp hne with ⟨rest, hmm⟩
        obtain ⟨C, r, hCc, heq, -⟩ := privMatchHead_some_iff.mp hmm
        have heq2 : (c :: X') ++ '"' :: Y = C ++ '"' :: r := heq
        have hnC : ∀ a ∈ C, a ≠ '"' := isCore_noQuote hi' hCc
        obtain ⟨h1, -⟩ := splitFirstAt heq2 hX hnC
        exact hc (h1 ▸ hCc)
      rcases ih hX' with ⟨heq', hno⟩ | ⟨X1, X2, hsp, hcore, hlong, heq'⟩
      · left
        refine ⟨?_, ?_⟩
        · rw [show (c :: X') ++ '"' :: Y = c :: (X' ++ '"' :: Y) from rfl,
            privReplaceAll_nomatch url' hm, heq']
          rfl
        · intro u v huv hv
          cases u with
          | nil =>
            simp only [List.nil_append] at huv
            exact hc (by rw [← huv] at hv; exact hv)
          | cons b u2 =>
            simp only [List.cons_append, List.cons.injEq] at huv
            exact hno u2 v huv.2 hv
      · right
        refine ⟨c :: X1, X2, by simp [hsp], hcore, ?_, ?_⟩
        · intro u v huv hv
          cases u with
          | nil =>
            simp only [List.nil_append] at huv
            exact absurd (by rw [← huv] at hv; exact hv) hc
          | cons b u2 =>
            simp only [List.cons_append, List.cons.injEq] at huv
            exact hlong u2 v huv.2 hv
        · rw [show (c :: X') ++ '"' :: Y = c :: (X' ++ '"' :: Y) from rfl,
            privReplaceAll_nomatch url' hm, heq']
          rfl

theorem privLit_ne_pubLit {u v : Str} (h : privLit ++ u = pubLit ++ v) : False := by
  have hp : privLit = "https://p".data ++ "rivate-user-images.githubusercontent.com/".data := by
    decide
  have hg : pubLit = "https://g".data ++ "ithub.com/".data := by decide
  rw [hp, hg, List.append_assoc, List.append_assoc] at h
  obtain ⟨h1, -⟩ := List.append_inj h (by decide)
  exact absurd h1 (by decide)

theorem urlShape_noQuote {url : Str} (h : UrlShape url) : noQuote url := by
  obtain ⟨ow, rp, nm, uu, how, hrp, hnm, huu, rfl⟩ := h
  intro c hc
  rcases List.mem_append.mp hc with h | h
  · rcases List.mem_append.mp h with h | h
    · rcases List.mem_append.mp h with h | h
      · rcases List.mem_append.mp h with h | h
        · rcases List.mem_append.mp h with h | h
          · exact (by decide : ∀ c ∈ pubLit, c ≠ '"') c h
          · exact ne_of_class (how c h) (by decide)
        · rcases List.mem_cons.mp h with rfl | h
          · decide
          · exact ne_of_class (hrp c h) (by decide)
      · exact (by decide : ∀ c ∈ "/assets/".data, c ≠ '"') c h
    · exact ne_of_class (hnm c h) (by decide)
  · rcases List.mem_cons.mp h with rfl | h
    · decide
    · rcases huu c h with hh | rfl
      · exact ne_of_class hh (by decide)
      · decide

theorem urlShape_split {url : Str} (h : UrlShape url) :
    ∃ R, url = "https".data ++ ':' :: ("//github.com/".data ++ R) ∧
      ∀ c ∈ "//github.com/".data ++ R, c ≠ ':' := by
  obtain ⟨ow, rp, nm, uu, how, hrp, hnm, huu, rfl⟩ := h
  refine ⟨ow ++ '/' :: rp ++ "/assets/".data ++ nm ++ '/' :: uu, ?_, ?_⟩
  · rw [show pubLit = "https".data ++ ':' :: "//github.com/".data from by decide]
    simp [List.append_assoc]
  · intro c hc
    rcases List.mem_append.mp hc with h | h
    · exact (by decide : ∀ c ∈ "//github.com/".data, c ≠ ':') c h
    · rcases List.mem_append.mp h with h | h
      · rcases List.mem_append.mp h with h | h
        · rcases List.mem_append.mp h with h | h
          · rcases List.mem_append.mp h with h | h
            · exact ne_of_class (how c h) (by decide)
            · rcases List.mem_cons.mp h with rfl | h
              · decide
              · exact ne_of_class (hrp c h) (by decide)
          · exact (by decide : ∀ c ∈ "/assets/".data, c ≠ ':') c h
        · exact ne_of_class (hnm c h) (by decide)
      · rcases List.mem_cons.mp h with rfl | h
        · decide
        · rcases huu c h with hh | rfl
          · exact ne_of_class hh (by decide)
          · decide

theorem priv_not_inside {url x y : Str} (h : UrlShape url)
    (he : url = x ++ privLit ++ y) : False := by
  obtain ⟨R, huE, hRnc⟩ := urlShape_split h
  have he2 : url = (x ++ "https".data) ++ ':' ::
      ("//private-user-images.githubusercontent.com/".data ++ y) := by
    rw [he, show privLit = "https".data ++ ':' ::
      "//private-user-images.githubusercontent.com/".data from by decide]
    simp [List.append_assoc]
  have hcnt1 : url.count ':' = 1 := by
    rw [huE, List.count_append, List.count_cons_self]
    have h0 : ("//github.com/".data ++ R).count ':' = 0 :=
      List.count_eq_zero.mpr (fun hm => hRnc ':' hm rfl)
    rw [h0]
    decide
  have hcnt2 := hcnt1
  rw [he2, List.count_append, List.count_cons_self, List.count_append,
    List.count_append] at hcnt2
  have hP0 : ("//private-user-images.githubusercontent.com/".data).count ':' = 0 := by
    decide
  have hH0 : ("https".data).count ':' = 0 := by decide
  rw [hP0, hH0] at hcnt2
  have hx0 : x.count ':' = 0 := by omega
  have hEq3 : "https".data ++ ':' :: ("//github.com/".data ++ R) =
      (x ++ "https".data) ++ ':' ::
        ("//private-user-images.githubusercontent.com/".data ++ y) := by
    rw [← huE]
    exact he2
  obtain ⟨-, h9⟩ := splitFirstAt hEq3 (by decide) (by
    intro c hc hceq
    subst hceq
    rcases List.mem_append.mp hc with h | h
    · exact absurd h (List.count_eq_zero.mp hx0)
    · exact absurd h (by decide))
  have hp3 : ("//private-user-images.githubusercontent.com/".data : Str) =
      "//p".data ++ "rivate-user-images.githubusercontent.com/".data := by decide
  have hg3 : ("//github.com/".data : Str) = "//g".data ++ "ithub.com/".data := by decide
  rw [hp3, hg3, List.append_assoc, List.append_assoc] at h9
  obtain ⟨h10, -⟩ := List.append_inj h9 (by decide)
  exact absurd h10 (by decide)

theorem junction {url1 id1 id X1 X2 a C : Str} (hu : UrlShape url1)
    (hi1 : IdOk id1) (hid : IdOk id) (hX2 : IsCore id1 X2) (hC : IsCore id C)
    (heq : X1 ++ url1 = a ++ C) :
    ∃ a2 C2, X1 ++ X2 = a2 ++ C2 ∧ IsCore id C2 ∧ X2.length < C2.length := by
  obtain ⟨d1, d2, lazy, hd1ne, hd1, hd2ne, hd2, hlz, hCe⟩ := hC
  have hCP : C = (privLit ++ d1 ++ '/' :: d2 ++ '-' :: id ++ ['.']) ++ lazy := by
    rw [hCe]
    simp [List.append_assoc]
  rcases List.append_eq_append_iff.mp heq with ⟨w, ha, hurl⟩ | ⟨w, hX1, hCw⟩
  · -- url1 = w ++ C: privLit would be an infix of the public URL
    have hinf : url1 = w ++ privLit ++ (d1 ++ '/' :: d2 ++ '-' :: id ++ '.' :: lazy) := by
      rw [hurl, hCe]
      simp [List.append_assoc]
    exact (priv_not_inside hu hinf).elim
  · cases w with
    | nil =>
      simp only [List.nil_append] at hCw
      obtain ⟨ow, rp, nm, uu, -, -, -, -, hue⟩ := hu
      exfalso
      apply privLit_ne_pubLit (u := d1 ++ '/' :: d2 ++ '-' :: id ++ '.' :: lazy)
        (v := ow ++ '/' :: rp ++ "/assets/".data ++ nm ++ '/' :: uu)
      have h1 := hCe.symm.trans (hCw.trans hue)
      simpa [List.append_assoc] using h1
    | cons w0 wr =>
      have hsplit2 : (privLit ++ d1 ++ '/' :: d2 ++ '-' :: id ++ ['.']) ++ lazy =
          (w0 :: wr) ++ url1 := by
        rw [← hCP, hCw]
      rcases List.append_eq_append_iff.mp hsplit2 with ⟨t, hw, hlz2⟩ | ⟨t, hcp, hurl2⟩
      · -- the public URL lies inside the lazy region: a longer core exists
        refine ⟨a, privLit ++ d1 ++ '/' :: d2 ++ '-' :: id ++ '.' :: (t ++ X2), ?_, ?_, ?_⟩
        · rw [hX1, hw]
          simp [List.append_assoc]
        · refine ⟨d1, d2, t ++ X2, hd1ne, hd1, hd2ne, hd2, ?_, rfl⟩
          intro c hc
          rcases List.mem_append.mp hc with h | h
          · exact hlz c (by rw [hlz2]; exact List.mem_append_left _ h)
          · exact isCore_transparent hi1 hX2 c h
        · have hl : privLit.length = 50 := by decide
          simp only [List.length_append, List.length_cons, hl]
          omega
      · cases t with
        | nil =>
          -- the boundary falls exactly at the start of the lazy region
          simp only [List.append_nil] at hcp
          refine ⟨a, privLit ++ d1 ++ '/' :: d2 ++ '-' :: id ++ '.' :: X2, ?_, ?_, ?_⟩
          · rw [hX1, ← hcp]
            simp [List.append_assoc]
          · exact ⟨d1, d2, X2, hd1ne, hd1, hd2ne, hd2,
              fun c hc => isCore_transparent hi1 hX2 c hc, rfl⟩
          · have hl : privLit.length = 50 := by decide
            simp only [List.length_append, List.length_cons, hl]
            omega
        | cons t0 tr =>
          -- the boundary falls strictly inside the fixed part: impossible
          exfalso
          rcases List.eq_nil_or_concat (t0 :: tr) with habs | ⟨t1, tl, hte⟩
          · simp at habs
          rw [List.concat_eq_append] at hte
          have h5 : ((w0 :: wr) ++ t1) ++ [tl] =
              (privLit ++ d1 ++ '/' :: d2 ++ '-' :: id) ++ ['.'] := by
            rw [List.append_assoc, ← hte, ← hcp]
          obtain ⟨-, h6⟩ := List.append_inj' h5 rfl
          have htl : tl = '.' := by simpa using h6
          have hdot : '.' ∈ t0 :: tr := by
            rw [hte, htl]
            exact List.mem_append_right _ (by simp)
          obtain ⟨R, huE, hRnc⟩ := urlShape_split hu
          have h7 : (t0 :: tr) ++ lazy =
              "https".data ++ ':' :: ("//github.com/".data ++ R) := by
            rw [← hurl2]
            exact huE
          rcases List.append_eq_append_iff.mp h7 with ⟨y, hty, hrest⟩ | ⟨y, hhy, hlzy⟩
          · -- t is a nonempty prefix of "https": but t ends in '.'
            have : '.' ∈ "https".data := by
              rw [hty]
              exact List.mem_append_left _ hdot
            exact absurd this (by decide)
          · cases y with
            | nil =>
              have : '.' ∈ "https".data ++ ([] : Str) := by
                rw [← hhy]
                exact hdot
              exact absurd this (by decide)
            | cons y0 yr =>
              simp only [List.cons_append, List.cons.injEq] at hlzy
              obtain ⟨hy0, -⟩ := hlzy
              rw [← hy0] at hhy
              rw [hhy] at hcp
              have hCPcolon : privLit ++ d1 ++ '/' :: d2 ++ '-' :: id ++ ['.'] =
                  "https".data ++ ':' ::
                    ("//private-user-images.githubusercontent.com/".data ++
                      d1 ++ '/' :: d2 ++ '-' :: id ++ ['.']) := by
                rw [show privLit = "https".data ++ ':' ::
                  "//private-user-images.githubusercontent.com/".data from by decide]
                simp [List.append_assoc]
              have hQnc : ∀ c ∈ "//private-user-images.githubusercontent.com/".data ++
                  d1 ++ '/' :: d2 ++ '-' :: id ++ ['.'], c ≠ ':' := by
                intro c hc
                rcases List.mem_append.mp hc with h | h
                · rcases List.mem_append.mp h with h | h
                  · rcases List.mem_append.mp h with h | h
                    · rcases List.mem_append.mp h with h | h
                      · exact (by decide :
                          ∀ c ∈ "//private-user-images.githubusercontent.com/".data,
                            c ≠ ':') c h
                      · exact ne_of_class (hd1 c h) (by decide)
                    · rcases List.mem_cons.mp h with rfl | h
                      · decide
                      · exact ne_of_class (hd2 c h) (by decide)
                  · rcases List.mem_cons.mp h with rfl | h
                    · decide
                    · rcases hid c h with hh | rfl
                      · exact ne_of_class hh (by decide)
                      · decide
                · rcases List.mem_cons.mp h with rfl | h
                  · decide
                  · exact absurd h (List.not_mem_nil c)
              have hq0 : ("//private-user-images.githubusercontent.com/".data ++
                  d1 ++ '/' :: d2 ++ '-' :: id ++ ['.']).count ':' = 0 :=
                List.count_eq_zero.mpr (fun hm => hQnc ':' hm rfl)
              have hcnt : (privLit ++ d1 ++ '/' :: d2 ++ '-' :: id ++ ['.']).count ':' = 1 := by
                rw [hCPcolon, List.count_append, List.count_cons_self, hq0]
                decide
              have hcnt2 : ((w0 :: wr) ++ ("https".data ++ ':' :: yr)).count ':' = 1 := by
                rw [← hcp]
                exact hcnt
              rw [List.count_append, List.count_append, List.count_cons_self] at hcnt2
              have hH0 : ("https".data).count ':' = 0 := by decide
              rw [hH0] at hcnt2
              have hw0 : (w0 :: wr).count ':' = 0 := by omega
              have hEq2 : "https".data ++ ':' ::
                  ("//private-user-images.githubusercontent.com/".data ++
                    d1 ++ '/' :: d2 ++ '-' :: id ++ ['.']) =
                  ((w0 :: wr) ++ "https".data) ++ ':' :: yr := by
                rw [← hCPcolon, hcp]
                simp [List.append_assoc]
              obtain ⟨h8, -⟩ := splitFirstAt hEq2 (by decide) (by
                intro c hc hceq
                subst hceq
                rcases List.mem_append.mp hc with h | h
                · exact absurd h (List.count_eq_zero.mp hw0)
                · exact absurd h (by decide))
              have hlen := congrArg List.length h8
              simp only [List.length_append, List.length_cons] at hlen
              omega

theorem privReplaceAll_key (url1 id1 : Str) (hu : UrlShape url1) (hi1 : IdOk id1) :
    ∀ n, ∀ s : Str, s.length ≤ n →
      ¬HasM id1 (privReplaceAll id1 url1 s) ∧
      (∀ id, IdOk id → HasM id (privReplaceAll id1 url1 s) → HasM id s) := by
  intro n
  induction n with
  | zero =>
    intro s hs
    have hnil : s = [] := List.length_eq_zero.mp (Nat.le_zero.mp hs)
    subst hnil
    rw [privReplaceAll_nil]
    exact ⟨noQuote_not_hasM (fun c hc => absurd hc (List.not_mem_nil c)),
      fun id _ h => h⟩
  | succ n ih =>
    intro s hs
    rcases quote_split s with hnq | ⟨X, Y, hX, rfl⟩
    · rw [privReplaceAll_noQuote hnq]
      exact ⟨noQuote_not_hasM hnq, fun id _ h => h⟩
    · have hYlen : Y.length ≤ n := by
        simp only [List.length_append, List.length_cons] at hs
        omega
      rcases seg2 id1 url1 hi1 Y X hX with ⟨heqA, hnoA⟩ | ⟨X1, X2, hsp, hcore, hlong, heqB⟩
      · rw [heqA]
        constructor
        · intro hM
          rcases (hasM_split hi1 hX).mp hM with ⟨a, C, hC, hXa⟩ | hMY
          · exact hnoA a C hXa hC
          · exact (ih Y hYlen).1 hMY
        · intro id hid hM
          rcases (hasM_split hid hX).mp hM with ⟨a, C, hC, hXa⟩ | hMY
          · exact ⟨a, C, Y, hC, by rw [hXa]⟩
          · have hY := (ih Y hYlen).2 id hid hMY
            obtain ⟨a, C, r, hC, rfl⟩ := hY
            exact ⟨X ++ '"' :: a, C, r, hC, by simp [List.append_assoc]⟩
      · rw [heqB]
        have hq2 : noQuote (X1 ++ url1) := by
          intro c hc
          rcases List.mem_append.mp hc with h | h
          · exact hX c (by rw [hsp]; exact List.mem_append_left _ h)
          · exact urlShape_noQuote hu c h
        constructor
        · intro hM
          rcases (hasM_split hi1 hq2).mp hM with ⟨a, C, hC, hXa⟩ | hMY
          · obtain ⟨a2, C2, hsplit, hC2, hlen⟩ := junction hu hi1 hi1 hcore hC hXa
            have hle := hlong a2 C2 (by rw [hsp]; exact hsplit) hC2
            omega
          · exact (ih Y hYlen).1 hMY
        · intro id hid hM
          rcases (hasM_split hid hq2).mp hM with ⟨a, C, hC, hXa⟩ | hMY
          · obtain ⟨a2, C2, hsplit, hC2, -⟩ := junction hu hi1 hid hcore hC hXa
            exact ⟨a2, C2, Y, hC2, by rw [hsp, hsplit]⟩
          · have hY := (ih Y hYlen).2 id hid hMY
            obtain ⟨a, C, r, hC, rfl⟩ := hY
            exact ⟨X ++ '"' :: a, C, r, hC, by simp [List.append_assoc]⟩

theorem privReplaceAll_self_clear {url1 id1 : Str} (hu : UrlShape url1)
    (hi1 : IdOk id1) (s : Str) : ¬HasM id1 (privReplaceAll id1 url1 s) :=
  (privReplaceAll_key url1 id1 hu hi1 s.length s (Nat.le_refl _)).1

theorem privReplaceAll_reflects {url1 id1 id : Str} (hu : UrlShape url1)
    (hi1 : IdOk id1) (hid : IdOk id) {s : Str}
    (h : HasM id (privReplaceAll id1 url1 s)) : HasM id s :=
  (privReplaceAll_key url1 id1 hu hi1 s.length s (Nat.le_refl _)).2 id hid h

theorem fold_preserves_not_hasM {id : Str} (hid : IdOk id) :
    ∀ (l : List (Str × Str)), (∀ p ∈ l, UrlShape p.1 ∧ IdOk p.2) →
    ∀ {acc : Str}, ¬HasM id acc →
    ¬HasM id (l.foldl (fun h p => privReplaceAll p.2 p.1 h) acc) := by
  intro l
  induction l with
  | nil =>
    intro _ acc hacc
    exact hacc
  | cons p l2 ih =>
    intro hok acc hacc
    rw [List.foldl_cons]
    refine ih (fun q hq => hok q (by simp [hq])) ?_
    intro hM
    have hp := hok p (by simp)
    exact hacc (privReplaceAll_reflects hp.1 hp.2 hid hM)

theorem fold_clears : ∀ (l : List (Str × Str)),
    (∀ p ∈ l, UrlShape p.1 ∧ IdOk p.2) →
    ∀ acc, ∀ q ∈ l, ¬HasM q.2 (l.foldl (fun h p => privReplaceAll p.2 p.1 h) acc) := by
  intro l
  induction l with
  | nil =>
    intro _ acc q hq
    exact absurd hq (List.not_mem_nil q)
  | cons p l2 ih =>
    intro hok acc q hq
    rw [List.foldl_cons]
    rcases List.mem_cons.mp hq with rfl | hq2
    · have hp := hok q (by simp)
      exact fold_preserves_not_hasM hp.2 l2 (fun r hr => hok r (by simp [hr]))
        (privReplaceAll_self_clear hp.1 hp.2 acc)
    · exact ih (fun r hr => hok r (by simp [hr])) _ q hq2

theorem fold_fixed : ∀ (l : List (Str × Str)) (acc : Str),
    (∀ p ∈ l, ¬HasM p.2 acc) →
    l.foldl (fun h p => privReplaceAll p.2 p.1 h) acc = acc := by
  intro l
  induction l with
  | nil =>
    intro acc _
    rfl
  | cons p l2 ih =>
    intro acc hall
    rw [List.foldl_cons]
    have h1 : privReplaceAll p.2 p.1 acc = acc :=
      privReplaceAll_not_hasM (hall p (by simp))
    rw [h1]
    exact ih acc (fun q hq => hall q (by simp [hq]))

theorem takeWhile1_class {p : Char → Bool} {s : Str} {tr : Str × Str}
    (h : takeWhile1 p s = some tr) : ∀ c ∈ tr.1, p c = true := by
  cases s with
  | nil => simp [takeWhile1] at h
  | cons c t =>
    by_cases hc : p c
    · simp only [takeWhile1, hc, if_pos, Option.some.injEq] at h
      subst h
      intro a ha
      rcases List.mem_cons.mp ha with rfl | ha2
      · exact hc
      · exact List.mem_takeWhile_imp ha2
    · simp [takeWhile1, hc] at h

theorem takeHexN_class : ∀ {n : Nat} {s : Str} {tr : Str × Str},
    takeHexN n s = some tr → ∀ c ∈ tr.1, isHexC c = true := by
  intro n
  induction n with
  | zero =>
    intro s tr h
    simp only [takeHexN, Option.some.injEq] at h
    subst h
    intro c hc
    exact absurd hc (List.not_mem_nil c)
  | succ n ih =>
    intro s tr h
    cases s with
    | nil => simp [takeHexN] at h
    | cons c t =>
      by_cases hc : isHexC c
      · simp only [takeHexN, hc, if_pos, Option.map_eq_some'] at h
        obtain ⟨pr, h1, h2⟩ := h
        subst h2
        intro a ha
        rcases List.mem_cons.mp ha with rfl | ha2
        · exact hc
        · exact ih h1 a ha2
      · simp [takeHexN, hc] at h

theorem takeUuid_class {s : Str} {ur : Str × Str} (h : takeUuid s = some ur) :
    ∀ c ∈ ur.1, isHexC c = true ∨ c = '-' := by
  rw [takeUuid] at h
  obtain ⟨a1, h8, h⟩ := Option.bind_eq_some.mp h
  obtain ⟨r9, h9, h⟩ := Option.bind_eq_some.mp h
  obtain ⟨a2, h10, h⟩ := Option.bind_eq_some.mp h
  obtain ⟨r11, h11, h⟩ := Option.bind_eq_some.mp h
  obtain ⟨a3, h12, h⟩ := Option.bind_eq_some.mp h
  obtain ⟨r13, h13, h⟩ := Option.bind_eq_some.mp h
  obtain ⟨a4, h14, h⟩ := Option.bind_eq_some.mp h
  obtain ⟨r15, h15, h⟩ := Option.bind_eq_some.mp h
  obtain ⟨a5, h16, hfin⟩ := Option.bind_eq_some.mp h
  have hur : ur.1 = a1.1 ++ '-' :: a2.1 ++ '-' :: a3.1 ++ '-' :: a4.1 ++ '-' :: a5.1 := by
    have := congrArg (fun o => o.map Prod.fst) hfin
    simpa using this.symm
  rw [hur]
  intro c hc
  rcases List.mem_append.mp hc with h | h
  · rcases List.mem_append.mp h with h | h
    · rcases List.mem_append.mp h with h | h
      · rcases List.mem_append.mp h with h | h
        · exact Or.inl (takeHexN_class h8 c h)
        · rcases List.mem_cons.mp h with rfl | h
          · exact Or.inr rfl
          · exact Or.inl (takeHexN_class h10 c h)
      · rcases List.mem_cons.mp h with rfl | h
        · exact Or.inr rfl
        · exact Or.inl (takeHexN_class h12 c h)
    · rcases List.mem_cons.mp h with rfl | h
      · exact Or.inr rfl
      · exact Or.inl (takeHexN_class h14 c h)
  · rcases List.mem_cons.mp h with rfl | h
    · exact Or.inr rfl
    · exact Or.inl (takeHexN_class h16 c h)

theorem pubMatchHead_shape {s : Str} {uir : Str × Str × Str}
    (h : pubMatchHead s = some uir) : UrlShape uir.1 ∧ IdOk uir.2.1 := by
  rw [pubMatchHead] at h
  obtain ⟨r1, h1, h⟩ := Option.bind_eq_some.mp h
  obtain ⟨ow, h2, h⟩ := Option.bind_eq_some.mp h
  obtain ⟨r3, h3, h⟩ := Option.bind_eq_some.mp h
  obtain ⟨rp, h4, h⟩ := Option.bind_eq_some.mp h
  obtain ⟨r5, h5, h⟩ := Option.bind_eq_some.mp h
  obtain ⟨nm, h6, h⟩ := Option.bind_eq_some.mp h
  obtain ⟨r7, h7, h⟩ := Option.bind_eq_some.mp h
  obtain ⟨ui, h8, hfin⟩ := Option.bind_eq_some.mp h
  have hu1 : uir.1 = pubLit ++ ow.1 ++ '/' :: rp.1 ++ "/assets/".data ++ nm.1 ++ '/' :: ui.1 := by
    have := congrArg (fun o => o.map Prod.fst) hfin
    simpa using this.symm
  have hu2 : uir.2.1 = ui.1 := by
    have := congrArg (fun o => o.map (fun x => x.2.1)) hfin
    simpa using this.symm
  constructor
  · rw [hu1]
    exact ⟨ow.1, rp.1, nm.1, ui.1, takeWhile1_class h2, takeWhile1_class h4,
      takeWhile1_class h6, takeUuid_class h8, rfl⟩
  · rw [hu2]
    exact takeUuid_class h8

theorem pubMatchAllGo_shape : ∀ (fuel : Nat) (s : Str) (q : Str × Str),
    q ∈ pubMatchAllGo fuel s → UrlShape q.1 ∧ IdOk q.2 := by
  intro fuel
  induction fuel with
  | zero =>
    intro s q hq
    cases s with
    | nil => exact absurd hq (List.not_mem_nil q)
    | cons c t => exact absurd hq (List.not_mem_nil q)
  | succ f ih =>
    intro s q hq
    cases s with
    | nil => exact absurd hq (List.not_mem_nil q)
    | cons c t =>
      revert hq
      show q ∈ (match pubMatchHead (c :: t) with
        | some uir => (uir.1, uir.2.1) :: pubMatchAllGo f uir.2.2
        | none => pubMatchAllGo f t) → _
      cases hm : pubMatchHead (c :: t) with
      | some uir =>
        dsimp only
        intro hq
        rcases List.mem_cons.mp hq with rfl | hq2
        · exact ⟨(pubMatchHead_shape hm).1, (pubMatchHead_shape hm).2⟩
        · exact ih uir.2.2 q hq2
      | none =>
        dsimp only
        intro hq
        exact ih t q hq

theorem mem_setProp {m : PropMap} {k v : Str} {q : Str × Str} (h : q ∈ setProp m k v) :
    q ∈ m ∨ q = (k, v) := by
  rw [setProp] at h
  by_cases hany : m.any (fun p => p.1 == k)
  · rw [if_pos hany] at h
    obtain ⟨p, hp, hpe⟩ := List.mem_map.mp h
    by_cases hpk : p.1 == k
    · rw [if_pos hpk] at hpe
      exact Or.inr hpe.symm
    · rw [if_neg hpk] at hpe
      exact Or.inl (hpe ▸ hp)
  · rw [if_neg hany] at h
    rcases List.mem_append.mp h with h | h
    · exact Or.inl h
    · rcases List.mem_cons.mp h with rfl | h
      · exact Or.inr rfl
      · exact absurd h (List.not_mem_nil q)

theorem mem_foldl_setProp : ∀ (l acc : List (Str × Str)) (q : Str × Str),
    q ∈ l.foldl (fun m p => setProp m p.1 p.2) acc → q ∈ acc ∨ q ∈ l := by
  intro l
  induction l with
  | nil =>
    intro acc q hq
    exact Or.inl hq
  | cons p l2 ih =>
    intro acc q hq
    rw [List.foldl_cons] at hq
    rcases ih _ q hq with h | h
    · rcases mem_setProp h with h2 | h2
      · exact Or.inl h2
      · right
        rw [h2]
        simp
    · exact Or.inr (by simp [h])

theorem publicMatches_shape (md : Str) :
    ∀ q ∈ publicMatches md, UrlShape q.1 ∧ IdOk q.2 := by
  intro q hq
  rcases mem_foldl_setProp (pubMatchAll md) [] q hq with h | h
  · exact absurd h (List.not_mem_nil q)
  · exact pubMatchAllGo_shape md.length md q h

/-- C9: the private-image rewrite is idempotent: for every markdown string
m and HTML string h, replacePrivateImage m (replacePrivateImage m h)
equals replacePrivateImage m h. -/
theorem replacePrivateImage_idempotent (markdown html : Str) :
    replacePrivateImage markdown (replacePrivateImage markdown html) =
      replacePrivateImage markdown html := by
  by_cases hm : markdown = []
  · rw [replacePrivateImage, if_pos hm]
  · rw [replacePrivateImage, if_neg hm]
    apply fold_fixed
    intro p hp
    rw [replacePrivateImage, if_neg hm]
    exact fold_clears (publicMatches markdown) (publicMatches_shape markdown) html p hp
